import Mathlib

/-!
Verification of the two cascade simulators of this repository:
the directed-percolation flow simulator (src/hw1/roll_percolation.py,
class PercolationSimulation) and the abelian-sandpile avalanche
simulator (src/hw1/roll_sandpile.py, class AbelianSandpile).

Grids are embedded as total functions Nat -> Nat -> Nat; every
operation only ever reads or writes coordinates inside the n x n
region, so values outside the region are irrelevant and all theorems
quantify over the region only.  The unbounded recursion and while
loops of the Python source are embedded with explicit fuel; the fuel
values used by the definitions are proved sufficient, so the
embedded functions compute exactly the limits of the source loops.
-/

namespace Spec2Proof

/-- A square lattice value assignment: grid g at row i, column j is g i j. -/
def PGrid : Type := Nat → Nat → Nat

/-- Point update of a grid: write value v at row i, column j. -/
def upd (g : PGrid) (i j v : Nat) : PGrid :=
  fun a b => if a = i ∧ b = j then v else g a b

theorem upd_eq (g : PGrid) (i j v : Nat) : upd g i j v i j = v := by
  simp [upd]

theorem upd_ne (g : PGrid) (i j v a b : Nat) (h : ¬(a = i ∧ b = j)) :
    upd g i j v a b = g a b := by
  simp [upd, h]

theorem upd_self (g : PGrid) (i j v : Nat) (h : g i j = v) : upd g i j v = g := by
  funext a b
  by_cases hab : a = i ∧ b = j
  · obtain ⟨ha, hb⟩ := hab
    subst ha; subst hb
    simp [upd, h]
  · simp [upd, hab]

/-- PercolationSimulation._flow_recursive.  The four movement flags are
computed once from the entry state (as _poll_neighbors does), then the
four directional branches run sequentially on the threaded state, each
marking its target Filled (2) before recursing into it.  Python's
unbounded recursion is embedded with explicit fuel. -/
def flowRec : Nat → Nat → PGrid → Nat → Nat → PGrid
  | 0, _, g, _, _ => g
  | fuel + 1, n, g, i, j =>
    let g1 := if j ≠ 0 ∧ g i (j - 1) = 1 then
        flowRec fuel n (upd g i (j - 1) 2) i (j - 1) else g
    let g2 := if j ≠ n - 1 ∧ g i (j + 1) = 1 then
        flowRec fuel n (upd g1 i (j + 1) 2) i (j + 1) else g1
    let g3 := if i ≠ 0 ∧ g (i - 1) j = 1 then
        flowRec fuel n (upd g2 (i - 1) j 2) (i - 1) j else g2
    let g4 := if i ≠ n - 1 ∧ g (i + 1) j = 1 then
        flowRec fuel n (upd g3 (i + 1) j 2) (i + 1) j else g3
    g4

/-- Number of Open (1) cells in the n x n region; the fuel measure for flowRec. -/
def ones (n : Nat) (g : PGrid) : Nat :=
  ((Finset.range n ×ˢ Finset.range n).filter (fun p => g p.1 p.2 = 1)).card

/-- PercolationSimulation.percolate: iterate over the columns of the top
row; every column whose source cell is Open is marked Filled in the
working grid and flow starts there.  The fuel handed to each flow call
is one more than the number of Open cells, which is proved sufficient. -/
def percSeeds (n : Nat) (gsrc : PGrid) : PGrid → List Nat → PGrid
  | gf, [] => gf
  | gf, c :: rest =>
    if gsrc 0 c = 1 then
      percSeeds n gsrc
        (flowRec (ones n (upd gf 0 c 2) + 1) n (upd gf 0 c 2) 0 c) rest
    else percSeeds n gsrc gf rest

/-- Run the percolate loop on working grid gf with source grid gsrc. -/
def percolateOn (n : Nat) (gsrc gf : PGrid) : PGrid :=
  percSeeds n gsrc gf (List.range n)

/-- The boolean result of percolate(): 2 occurs in the last row. -/
def percResult (n : Nat) (gf : PGrid) : Bool :=
  (List.range n).any (fun c => decide (gf (n - 1) c = 2))

/-- One grid evolves into another by transitions of Open (1) cells to
Filled (2) only; every other cell keeps its value. -/
def Evolves (g g' : PGrid) : Prop :=
  ∀ a b, g' a b = g a b ∨ (g a b = 1 ∧ g' a b = 2)

theorem Evolves.refl (g : PGrid) : Evolves g g := fun _ _ => Or.inl rfl

theorem Evolves.trans {g1 g2 g3 : PGrid} (h12 : Evolves g1 g2) (h23 : Evolves g2 g3) :
    Evolves g1 g3 := by
  intro a b
  rcases h23 a b with h | ⟨h2, h3⟩
  · rcases h12 a b with h' | ⟨h1, h2⟩
    · exact Or.inl (h.trans h')
    · exact Or.inr ⟨h1, h.trans h2⟩
  · rcases h12 a b with h' | ⟨h1, h2'⟩
    · exact Or.inr ⟨h' ▸ h2, h3⟩
    · rw [h2'] at h2; cases h2

theorem evolves_upd2 {g : PGrid} (i j : Nat) (h : g i j = 1 ∨ g i j = 2) :
    Evolves g (upd g i j 2) := by
  intro a b
  by_cases hab : a = i ∧ b = j
  · obtain ⟨ha, hb⟩ := hab
    subst ha; subst hb
    rcases h with h | h
    · exact Or.inr ⟨h, upd_eq ..⟩
    · exact Or.inl ((upd_eq ..).trans h.symm)
  · exact Or.inl (upd_ne _ _ _ _ _ _ hab)

theorem evolves_keep_two {g g' : PGrid} (h : Evolves g g') {a b : Nat}
    (h2 : g a b = 2) : g' a b = 2 := by
  rcases h a b with h' | ⟨h1, _⟩
  · exact h'.trans h2
  · rw [h1] at h2; cases h2

theorem evolves_keep_ne_one {g g' : PGrid} (h : Evolves g g') {a b : Nat}
    (h1 : g a b ≠ 1) : g' a b ≠ 1 := by
  rcases h a b with h' | ⟨hone, _⟩
  · rw [h']; exact h1
  · exact absurd hone h1

theorem evolves_val {g g' : PGrid} (h : Evolves g g') {a b : Nat}
    (hone : g a b = 1) : g' a b = 1 ∨ g' a b = 2 := by
  rcases h a b with h' | ⟨_, h2⟩
  · exact Or.inl (h'.trans hone)
  · exact Or.inr h2

/-- The body of flowRec evolves the entry grid: only 1 -> 2 transitions occur. -/
theorem flowRec_evolves : ∀ (fuel n : Nat) (g : PGrid) (i j : Nat),
    Evolves g (flowRec fuel n g i j) := by
  intro fuel
  induction fuel with
  | zero => intro n g i j; exact Evolves.refl g
  | succ fuel ih =>
    intro n g i j
    show Evolves g (flowRec (fuel + 1) n g i j)
    rw [flowRec]
    have hbr : ∀ (gp : PGrid) (c : Prop) [Decidable c] (a b : Nat),
        (c → g a b = 1) → Evolves g gp →
        Evolves g (if c then flowRec fuel n (upd gp a b 2) a b else gp) := by
      intro gp c _ a b hc he
      by_cases h : c
      · rw [if_pos h]
        have h1 : gp a b = 1 ∨ gp a b = 2 := evolves_val he (hc h)
        exact (he.trans (evolves_upd2 a b h1)).trans (ih n (upd gp a b 2) a b)
      · rw [if_neg h]; exact he
    apply hbr
    · exact fun h => h.2
    apply hbr
    · exact fun h => h.2
    apply hbr
    · exact fun h => h.2
    apply hbr
    · exact fun h => h.2
    exact Evolves.refl g

theorem ones_le_of_evolves {n : Nat} {g g' : PGrid} (h : Evolves g g') :
    ones n g' ≤ ones n g := by
  apply Finset.card_le_card
  intro p hp
  rw [Finset.mem_filter] at hp ⊢
  refine ⟨hp.1, ?_⟩
  rcases h p.1 p.2 with h' | ⟨h1, _⟩
  · exact h'.symm.trans hp.2
  · exact h1

theorem ones_lt_of_evolves {n : Nat} {g g' : PGrid} (h : Evolves g g')
    {a b : Nat} (ha : a < n) (hb : b < n) (h1 : g a b = 1) (h1' : g' a b ≠ 1) :
    ones n g' < ones n g := by
  apply Finset.card_lt_card
  constructor
  · intro p hp
    rw [Finset.mem_filter] at hp ⊢
    refine ⟨hp.1, ?_⟩
    rcases h p.1 p.2 with h' | ⟨hone, _⟩
    · exact h'.symm.trans hp.2
    · exact hone
  · intro hsub
    have hmem : (a, b) ∈ (Finset.range n ×ˢ Finset.range n).filter
        (fun p => g p.1 p.2 = 1) := by
      rw [Finset.mem_filter, Finset.mem_product]
      exact ⟨⟨Finset.mem_range.mpr ha, Finset.mem_range.mpr hb⟩, h1⟩
    have := hsub hmem
    rw [Finset.mem_filter] at this
    exact h1' this.2

theorem ones_upd2_le {n : Nat} {g : PGrid} {a b : Nat} (ha : a < n) (hb : b < n)
    (h1 : g a b = 1) : ones n (upd g a b 2) + 1 ≤ ones n g := by
  have := ones_lt_of_evolves (n := n) (evolves_upd2 a b (Or.inl h1)) ha hb h1
    (by rw [upd_eq]; decide)
  omega

theorem ones_pos {n : Nat} {g : PGrid} {a b : Nat} (ha : a < n) (hb : b < n)
    (h1 : g a b = 1) : 0 < ones n g := by
  apply Finset.card_pos.mpr
  refine ⟨(a, b), ?_⟩
  rw [Finset.mem_filter, Finset.mem_product]
  exact ⟨⟨Finset.mem_range.mpr ha, Finset.mem_range.mpr hb⟩, h1⟩

/-- No in-bounds neighbor of (i, j) is still Open: the four components
mirror exactly the four guarded reads of _poll_neighbors. -/
def ClosedAt (n : Nat) (g : PGrid) (i j : Nat) : Prop :=
  (j ≠ 0 → g i (j - 1) ≠ 1) ∧ (j ≠ n - 1 → g i (j + 1) ≠ 1) ∧
  (i ≠ 0 → g (i - 1) j ≠ 1) ∧ (i ≠ n - 1 → g (i + 1) j ≠ 1)

theorem closed_mono {n : Nat} {g g' : PGrid} (h : Evolves g g') {i j : Nat}
    (hc : ClosedAt n g i j) : ClosedAt n g' i j := by
  obtain ⟨h1, h2, h3, h4⟩ := hc
  exact ⟨fun hj => evolves_keep_ne_one h (h1 hj),
    fun hj => evolves_keep_ne_one h (h2 hj),
    fun hi => evolves_keep_ne_one h (h3 hi),
    fun hi => evolves_keep_ne_one h (h4 hi)⟩

/-- One directional branch of _flow_recursive as a standalone function. -/
def flowStep (fuel n : Nat) (c : Prop) [Decidable c] (g : PGrid) (a b : Nat) : PGrid :=
  if c then flowRec fuel n (upd g a b 2) a b else g

theorem flowRec_succ_eq (fuel n : Nat) (g : PGrid) (i j : Nat) :
    flowRec (fuel + 1) n g i j =
      flowStep fuel n (i ≠ n - 1 ∧ g (i + 1) j = 1)
        (flowStep fuel n (i ≠ 0 ∧ g (i - 1) j = 1)
          (flowStep fuel n (j ≠ n - 1 ∧ g i (j + 1) = 1)
            (flowStep fuel n (j ≠ 0 ∧ g i (j - 1) = 1) g i (j - 1))
            i (j + 1))
          (i - 1) j)
        (i + 1) j := rfl

/-- When no in-bounds neighbor is Open, every movement flag is false and
the flow call leaves the grid untouched. -/
theorem flowRec_noop (fuel n : Nat) (g : PGrid) (i j : Nat)
    (h : ClosedAt n g i j) : flowRec (fuel + 1) n g i j = g := by
  obtain ⟨h1, h2, h3, h4⟩ := h
  rw [flowRec_succ_eq]
  simp only [flowStep]
  rw [if_neg (fun hc : _ ∧ _ => h4 hc.1 hc.2)]
  rw [if_neg (fun hc : _ ∧ _ => h3 hc.1 hc.2)]
  rw [if_neg (fun hc : _ ∧ _ => h2 hc.1 hc.2)]
  rw [if_neg (fun hc : _ ∧ _ => h1 hc.1 hc.2)]

/-- Closure of the flood fill: with sufficient fuel, a flow call started
at a Filled cell leaves every Filled cell of the region closed, except
that cells in the excuse set E may remain open-adjacent if they are not
the call's own cell.  The fuel bound is the number of Open cells. -/
theorem flow_closed : ∀ (k n : Nat) (g : PGrid) (i j fuel : Nat)
    (E : Nat × Nat → Prop), i < n → j < n → ones n g ≤ k → k < fuel →
    (∀ a b, a < n → b < n → g a b = 2 → E (a, b) ∨ ClosedAt n g a b) →
    ∀ a b, a < n → b < n → flowRec fuel n g i j a b = 2 →
      (E (a, b) ∧ (a, b) ≠ (i, j)) ∨ ClosedAt n (flowRec fuel n g i j) a b := by
  intro k
  induction k with
  | zero =>
    intro n g i j fuel E hi hj hones hfuel hinv
    obtain ⟨fl, rfl⟩ : ∃ fl, fuel = fl + 1 := ⟨fuel - 1, by omega⟩
    have hcl : ClosedAt n g i j := by
      refine ⟨?_, ?_, ?_, ?_⟩
      · intro _ h1
        exact absurd (ones_pos hi (by omega) h1) (by omega)
      · intro hne h1
        exact absurd (ones_pos hi (by omega) h1) (by omega)
      · intro _ h1
        exact absurd (ones_pos (by omega) hj h1) (by omega)
      · intro hne h1
        exact absurd (ones_pos (by omega) hj h1) (by omega)
    rw [flowRec_noop fl n g i j hcl]
    intro a b ha hb h2
    rcases hinv a b ha hb h2 with hE | hc
    · by_cases hab : (a, b) = (i, j)
      · right
        rw [Prod.ext_iff] at hab
        obtain ⟨rfl, rfl⟩ := hab
        exact hcl
      · exact Or.inl ⟨hE, hab⟩
    · exact Or.inr hc
  | succ k ih =>
    intro n g i j fuel E hi hj hones hfuel hinv
    obtain ⟨fl, rfl⟩ : ∃ fl, fuel = fl + 1 := ⟨fuel - 1, by omega⟩
    have hkfl : k < fl := by omega
    -- one branch: preserves the invariant, evolves the state, fills its target
    have hstep : ∀ (gp : PGrid) (c : Prop) [Decidable c] (a b : Nat),
        (c → a < n ∧ b < n) → (c → g a b = 1) → Evolves g gp →
        (∀ x y, x < n → y < n → gp x y = 2 → E (x, y) ∨ ClosedAt n gp x y) →
        Evolves gp (flowStep fl n c gp a b) ∧
        (∀ x y, x < n → y < n → flowStep fl n c gp a b x y = 2 →
          E (x, y) ∨ ClosedAt n (flowStep fl n c gp a b) x y) ∧
        (c → flowStep fl n c gp a b a b = 2) := by
      intro gp c _ a b hreg hc1 hegp hinvp
      by_cases hcc : c
      · simp only [flowStep, if_pos hcc]
        obtain ⟨ha, hb⟩ := hreg hcc
        have hval : gp a b = 1 ∨ gp a b = 2 := evolves_val hegp (hc1 hcc)
        have honesu : ones n (upd gp a b 2) ≤ k := by
          rcases hval with h1 | h2
          · have hu := ones_upd2_le ha hb h1
            have hle := ones_le_of_evolves (n := n) hegp
            omega
          · rw [upd_self gp a b 2 h2]
            have := ones_lt_of_evolves (n := n) hegp ha hb (hc1 hcc)
              (by rw [h2]; decide)
            omega
        have hupd_ev : Evolves gp (upd gp a b 2) := evolves_upd2 a b hval
        have hflow_ev : Evolves (upd gp a b 2)
            (flowRec fl n (upd gp a b 2) a b) :=
          flowRec_evolves fl n (upd gp a b 2) a b
        have hE' : ∀ x y, x < n → y < n → upd gp a b 2 x y = 2 →
            (fun p => E p ∨ p = (a, b)) (x, y) ∨
              ClosedAt n (upd gp a b 2) x y := by
          intro x y hx hy h2
          by_cases hxy : x = a ∧ y = b
          · left; right
            rw [Prod.ext_iff]
            exact hxy
          · rw [upd_ne _ _ _ _ _ _ hxy] at h2
            rcases hinvp x y hx hy h2 with hE | hcl
            · exact Or.inl (Or.inl hE)
            · exact Or.inr (closed_mono hupd_ev hcl)
        have hih := ih n (upd gp a b 2) a b fl (fun p => E p ∨ p = (a, b))
          ha hb honesu hkfl hE'
        refine ⟨hupd_ev.trans hflow_ev, ?_, ?_⟩
        · intro x y hx hy h2
          rcases hih x y hx hy h2 with ⟨hE2, hne⟩ | hcl
          · rcases hE2 with hE2 | hE2
            · exact Or.inl hE2
            · exact absurd hE2 hne
          · exact Or.inr hcl
        · intro _
          exact evolves_keep_two hflow_ev (upd_eq ..)
      · simp only [flowStep, if_neg hcc]
        exact ⟨Evolves.refl gp, hinvp, fun h => absurd h hcc⟩
    -- chain the four branches
    obtain ⟨he1, hi1, ht1⟩ := hstep g (j ≠ 0 ∧ g i (j - 1) = 1) i (j - 1)
      (fun hc => ⟨hi, by omega⟩) (fun hc => hc.2) (Evolves.refl g) hinv
    obtain ⟨he2, hi2, ht2⟩ := hstep _ (j ≠ n - 1 ∧ g i (j + 1) = 1) i (j + 1)
      (fun hc => ⟨hi, by omega⟩) (fun hc => hc.2) he1 hi1
    obtain ⟨he3, hi3, ht3⟩ := hstep _ (i ≠ 0 ∧ g (i - 1) j = 1) (i - 1) j
      (fun hc => ⟨by omega, hj⟩) (fun hc => hc.2) (he1.trans he2) hi2
    obtain ⟨he4, hi4, ht4⟩ := hstep _ (i ≠ n - 1 ∧ g (i + 1) j = 1) (i + 1) j
      (fun hc => ⟨by omega, hj⟩) (fun hc => hc.2) ((he1.trans he2).trans he3) hi3
    rw [flowRec_succ_eq]
    have hcl : ClosedAt n
        (flowStep fl n (i ≠ n - 1 ∧ g (i + 1) j = 1)
          (flowStep fl n (i ≠ 0 ∧ g (i - 1) j = 1)
            (flowStep fl n (j ≠ n - 1 ∧ g i (j + 1) = 1)
              (flowStep fl n (j ≠ 0 ∧ g i (j - 1) = 1) g i (j - 1))
              i (j + 1))
            (i - 1) j)
          (i + 1) j) i j := by
      refine ⟨?_, ?_, ?_, ?_⟩
      · intro hj0
        by_cases hv : g i (j - 1) = 1
        · have h2 := ht1 ⟨hj0, hv⟩
          have := evolves_keep_two ((he2.trans he3).trans he4) h2
          omega
        · exact evolves_keep_ne_one ((((he1.trans he2).trans he3).trans he4)) hv
      · intro hjn
        by_cases hv : g i (j + 1) = 1
        · have h2 := ht2 ⟨hjn, hv⟩
          have := evolves_keep_two (he3.trans he4) h2
          omega
        · exact evolves_keep_ne_one ((((he1.trans he2).trans he3).trans he4)) hv
      · intro hi0
        by_cases hv : g (i - 1) j = 1
        · have h2 := ht3 ⟨hi0, hv⟩
          have := evolves_keep_two he4 h2
          omega
        · exact evolves_keep_ne_one ((((he1.trans he2).trans he3).trans he4)) hv
      · intro hin
        by_cases hv : g (i + 1) j = 1
        · have h2 := ht4 ⟨hin, hv⟩
          omega
        · exact evolves_keep_ne_one ((((he1.trans he2).trans he3).trans he4)) hv
    intro a b ha hb h2
    rcases hi4 a b ha hb h2 with hE | hc
    · by_cases hab : (a, b) = (i, j)
      · right
        rw [Prod.ext_iff] at hab
        obtain ⟨rfl, rfl⟩ := hab
        exact hcl
      · exact Or.inl ⟨hE, hab⟩
    · exact Or.inr hc

/-- Orthogonal adjacency in flow direction: (a, b) is one of the four
in-bounds movement targets of (i, j), with precisely the boundary
guards of _poll_neighbors. -/
def Adj (n i j a b : Nat) : Prop :=
  (j ≠ 0 ∧ a = i ∧ b = j - 1) ∨ (j ≠ n - 1 ∧ a = i ∧ b = j + 1) ∨
  (i ≠ 0 ∧ a = i - 1 ∧ b = j) ∨ (i ≠ n - 1 ∧ a = i + 1 ∧ b = j)

/-- A cell is reachable when it is an Open top-row cell or an Open cell
orthogonally adjacent to a reachable cell. -/
inductive Reach (n : Nat) (g : PGrid) : Nat → Nat → Prop where
  | top : ∀ c, c < n → g 0 c = 1 → Reach n g 0 c
  | step : ∀ i j a b, Reach n g i j → Adj n i j a b → g a b = 1 → Reach n g a b

theorem reach_region {n : Nat} {g : PGrid} (hn : 0 < n) :
    ∀ {i j : Nat}, Reach n g i j → i < n ∧ j < n := by
  intro i j h
  induction h with
  | top c hc _ => exact ⟨hn, hc⟩
  | step i j a b _ hadj _ ih =>
    rcases hadj with ⟨h, rfl, rfl⟩ | ⟨h, rfl, rfl⟩ | ⟨h, rfl, rfl⟩ | ⟨h, rfl, rfl⟩
    · omega
    · omega
    · omega
    · omega

/-- The filled grid relates to the source grid: every cell keeps its
source value except Open source cells that became Filled, and every
such transition is justified by reachability. -/
def SInv (n : Nat) (g0 gf : PGrid) : Prop :=
  ∀ a b, a < n → b < n →
    gf a b = g0 a b ∨ (g0 a b = 1 ∧ gf a b = 2 ∧ Reach n g0 a b)

/-- Every Filled cell of the region has no Open in-bounds neighbor. -/
def AllClosed (n : Nat) (gf : PGrid) : Prop :=
  ∀ a b, a < n → b < n → gf a b = 2 → ClosedAt n gf a b

/-- Soundness of the flood fill: starting flow at a reachable cell
preserves the source-relation invariant, so every cell it fills is
reachable. -/
theorem flow_sound : ∀ (fuel n : Nat) (g0 g : PGrid) (i j : Nat),
    i < n → j < n → SInv n g0 g → Reach n g0 i j →
    SInv n g0 (flowRec fuel n g i j) := by
  intro fuel
  induction fuel with
  | zero => intro n g0 g i j _ _ hs _; exact hs
  | succ fuel ih =>
    intro n g0 g i j hi hj hs hreach
    rw [flowRec_succ_eq]
    have hstep : ∀ (gp : PGrid) (c : Prop) [Decidable c] (a b : Nat),
        (c → a < n ∧ b < n) → (c → g a b = 1) → (c → Adj n i j a b) →
        Evolves g gp → SInv n g0 gp →
        SInv n g0 (flowStep fuel n c gp a b) ∧
          Evolves gp (flowStep fuel n c gp a b) := by
      intro gp c _ a b hreg hc1 hadj hegp hsp
      by_cases hcc : c
      · simp only [flowStep, if_pos hcc]
        obtain ⟨ha, hb⟩ := hreg hcc
        have hval : gp a b = 1 ∨ gp a b = 2 := evolves_val hegp (hc1 hcc)
        have hg0 : g0 a b = 1 := by
          rcases hs a b ha hb with h | ⟨_, h2, _⟩
          · exact h ▸ hc1 hcc
          · rw [hc1 hcc] at h2; cases h2
        have hr : Reach n g0 a b := Reach.step i j a b hreach (hadj hcc) hg0
        have hsu : SInv n g0 (upd gp a b 2) := by
          intro x y hx hy
          by_cases hxy : x = a ∧ y = b
          · obtain ⟨rfl, rfl⟩ := hxy
            exact Or.inr ⟨hg0, upd_eq .., hr⟩
          · rw [upd_ne _ _ _ _ _ _ hxy]
            exact hsp x y hx hy
        have hupd_ev : Evolves gp (upd gp a b 2) := evolves_upd2 a b hval
        refine ⟨ih n g0 (upd gp a b 2) a b ha hb hsu hr,
          hupd_ev.trans (flowRec_evolves fuel n (upd gp a b 2) a b)⟩
      · simp only [flowStep, if_neg hcc]
        exact ⟨hsp, Evolves.refl gp⟩
    obtain ⟨hs1, he1⟩ := hstep g (j ≠ 0 ∧ g i (j - 1) = 1) i (j - 1)
      (fun hc => ⟨hi, by omega⟩) (fun hc => hc.2)
      (fun hc => Or.inl ⟨hc.1, rfl, rfl⟩) (Evolves.refl g) hs
    obtain ⟨hs2, he2⟩ := hstep _ (j ≠ n - 1 ∧ g i (j + 1) = 1) i (j + 1)
      (fun hc => ⟨hi, by omega⟩) (fun hc => hc.2)
      (fun hc => Or.inr (Or.inl ⟨hc.1, rfl, rfl⟩)) he1 hs1
    obtain ⟨hs3, he3⟩ := hstep _ (i ≠ 0 ∧ g (i - 1) j = 1) (i - 1) j
      (fun hc => ⟨by omega, hj⟩) (fun hc => hc.2)
      (fun hc => Or.inr (Or.inr (Or.inl ⟨hc.1, rfl, rfl⟩))) (he1.trans he2) hs2
    obtain ⟨hs4, _⟩ := hstep _ (i ≠ n - 1 ∧ g (i + 1) j = 1) (i + 1) j
      (fun hc => ⟨by omega, hj⟩) (fun hc => hc.2)
      (fun hc => Or.inr (Or.inr (Or.inr ⟨hc.1, rfl, rfl⟩)))
      ((he1.trans he2).trans he3) hs3
    exact hs4

/-- Invariants carried through the top-row seeding loop of percolate():
closure of all Filled cells, the source relation, monotone evolution,
and the fact that every Open top-row column already visited is Filled. -/
theorem percSeeds_main (n : Nat) (g0 : PGrid) (hn : 0 < n) :
    ∀ (cols : List Nat) (gf : PGrid), (∀ c ∈ cols, c < n) →
    AllClosed n gf → SInv n g0 gf →
    AllClosed n (percSeeds n g0 gf cols) ∧
      SInv n g0 (percSeeds n g0 gf cols) ∧
      Evolves gf (percSeeds n g0 gf cols) ∧
      (∀ c ∈ cols, g0 0 c = 1 → percSeeds n g0 gf cols 0 c = 2) := by
  intro cols
  induction cols with
  | nil =>
    intro gf _ hcl hsi
    exact ⟨hcl, hsi, Evolves.refl gf, fun c hc => absurd hc (List.not_mem_nil c)⟩
  | cons c rest ih =>
    intro gf hmem hcl hsi
    have hcn : c < n := hmem c (List.mem_cons_self c rest)
    by_cases hc : g0 0 c = 1
    · have hval : gf 0 c = 1 ∨ gf 0 c = 2 := by
        rcases hsi 0 c hn hcn with h | ⟨_, h2, _⟩
        · exact Or.inl (h.trans hc)
        · exact Or.inr h2
      have hup_ev : Evolves gf (upd gf 0 c 2) := evolves_upd2 0 c hval
      have hfl_ev : Evolves (upd gf 0 c 2)
          (flowRec (ones n (upd gf 0 c 2) + 1) n (upd gf 0 c 2) 0 c) :=
        flowRec_evolves _ n (upd gf 0 c 2) 0 c
      have hclf : AllClosed n
          (flowRec (ones n (upd gf 0 c 2) + 1) n (upd gf 0 c 2) 0 c) := by
        intro a b ha hb h2
        have hH : ∀ x y, x < n → y < n → upd gf 0 c 2 x y = 2 →
            (fun p => p = ((0 : Nat), c)) (x, y) ∨
              ClosedAt n (upd gf 0 c 2) x y := by
          intro x y hx hy h2'
          by_cases hxy : x = 0 ∧ y = c
          · left
            show (x, y) = ((0 : Nat), c)
            rw [Prod.ext_iff]
            exact hxy
          · rw [upd_ne _ _ _ _ _ _ hxy] at h2'
            exact Or.inr (closed_mono hup_ev (hcl x y hx hy h2'))
        rcases flow_closed (ones n (upd gf 0 c 2)) n (upd gf 0 c 2) 0 c
            (ones n (upd gf 0 c 2) + 1) (fun p => p = ((0 : Nat), c))
            hn hcn (Nat.le_refl _) (Nat.lt_succ_self _) hH a b ha hb h2 with
          ⟨hE, hne⟩ | hclr
        · exact absurd hE hne
        · exact hclr
      have hsif : SInv n g0
          (flowRec (ones n (upd gf 0 c 2) + 1) n (upd gf 0 c 2) 0 c) := by
        apply flow_sound _ n g0 (upd gf 0 c 2) 0 c hn hcn
        · intro x y hx hy
          by_cases hxy : x = 0 ∧ y = c
          · obtain ⟨hx0, hyc⟩ := hxy
            rw [hx0, hyc]
            exact Or.inr ⟨hc, upd_eq .., Reach.top c hcn hc⟩
          · rw [upd_ne _ _ _ _ _ _ hxy]
            exact hsi x y hx hy
        · exact Reach.top c hcn hc
      have htwo : flowRec (ones n (upd gf 0 c 2) + 1) n (upd gf 0 c 2) 0 c 0 c = 2 :=
        evolves_keep_two hfl_ev (upd_eq ..)
      obtain ⟨hcl', hsi', hev', hc'⟩ :=
        ih _ (fun x hx => hmem x (List.mem_cons_of_mem c hx)) hclf hsif
      have hunf : percSeeds n g0 gf (c :: rest) =
          percSeeds n g0
            (flowRec (ones n (upd gf 0 c 2) + 1) n (upd gf 0 c 2) 0 c) rest := by
        simp only [percSeeds, if_pos hc]
      rw [hunf]
      refine ⟨hcl', hsi', (hup_ev.trans hfl_ev).trans hev', ?_⟩
      intro x hx hx1
      rcases List.mem_cons.mp hx with rfl | hx'
      · exact evolves_keep_two hev' htwo
      · exact hc' x hx' hx1
    · have hunf : percSeeds n g0 gf (c :: rest) = percSeeds n g0 gf rest := by
        simp only [percSeeds, if_neg hc]
      rw [hunf]
      obtain ⟨hcl', hsi', hev', hc'⟩ :=
        ih gf (fun x hx => hmem x (List.mem_cons_of_mem c hx)) hcl hsi
      refine ⟨hcl', hsi', hev', ?_⟩
      intro x hx hx1
      rcases List.mem_cons.mp hx with rfl | hx'
      · exact absurd hx1 hc
      · exact hc' x hx' hx1

/-- The grid supplied to PercolationSimulation contains Blocked (0) and
Open (1) sites only, across the whole region. -/
def ValidSrc (n : Nat) (g : PGrid) : Prop :=
  ∀ i, i < n → ∀ j, j < n → g i j = 0 ∨ g i j = 1

theorem percolateOn_spec (n : Nat) (g : PGrid) (hn : 0 < n) (hv : ValidSrc n g) :
    AllClosed n (percolateOn n g g) ∧ SInv n g (percolateOn n g g) ∧
      (∀ c, c < n → g 0 c = 1 → percolateOn n g g 0 c = 2) := by
  have hcl : AllClosed n g := by
    intro a b ha hb h2
    rcases hv a ha b hb with h | h
    · rw [h] at h2; cases h2
    · rw [h] at h2; cases h2
  have hsi : SInv n g g := fun a b _ _ => Or.inl rfl
  obtain ⟨h1, h2, _, h4⟩ := percSeeds_main n g hn (List.range n) g
    (fun c hc => List.mem_range.mp hc) hcl hsi
  exact ⟨h1, h2, fun c hc => h4 c (List.mem_range.mpr hc)⟩

/-- Completeness: every reachable cell ends up Filled. -/
theorem reach_filled (n : Nat) (g : PGrid) (hn : 0 < n) (hv : ValidSrc n g) :
    ∀ a b, Reach n g a b → percolateOn n g g a b = 2 := by
  obtain ⟨hcl, hsi, htop⟩ := percolateOn_spec n g hn hv
  intro a b h
  induction h with
  | top c hc h1 => exact htop c hc h1
  | step i j a b hr hadj h1 ihr =>
    obtain ⟨hi, hj⟩ := reach_region hn hr
    have hij2 : percolateOn n g g i j = 2 := ihr
    have hclij := hcl i j hi hj hij2
    have hne1 : percolateOn n g g a b ≠ 1 := by
      rcases hadj with ⟨h, rfl, rfl⟩ | ⟨h, rfl, rfl⟩ | ⟨h, rfl, rfl⟩ | ⟨h, rfl, rfl⟩
      · exact hclij.1 h
      · exact hclij.2.1 h
      · exact hclij.2.2.1 h
      · exact hclij.2.2.2 h
    have hab : a < n ∧ b < n := by
      obtain ⟨hi', hj'⟩ := reach_region hn hr
      rcases hadj with ⟨h, rfl, rfl⟩ | ⟨h, rfl, rfl⟩ | ⟨h, rfl, rfl⟩ | ⟨h, rfl, rfl⟩
      · omega
      · omega
      · omega
      · omega
    rcases hsi a b hab.1 hab.2 with h | ⟨_, h2, _⟩
    · exact absurd (h.trans h1) hne1
    · exact h2

theorem percResult_iff (n : Nat) (gf : PGrid) :
    percResult n gf = true ↔ ∃ c, c < n ∧ gf (n - 1) c = 2 := by
  unfold percResult
  rw [List.any_eq_true]
  constructor
  · rintro ⟨c, hc, hd⟩
    exact ⟨c, List.mem_range.mp hc, of_decide_eq_true hd⟩
  · rintro ⟨c, hc, h2⟩
    exact ⟨c, List.mem_range.mpr hc, decide_eq_true h2⟩

/-- The n = 2 example source grid [[1,0],[1,1]] of the specification. -/
def exSrc : PGrid := fun i j => if i = 0 ∧ j = 1 then 0 else 1

/-- The expected filled grid [[2,0],[2,2]] for the example. -/
def exFilled : PGrid := fun i j => if i = 0 ∧ j = 1 then 0 else 2

/-- Claim C1: after percolate() completes on a valid 0/1 source grid, a
cell of grid_filled is Filled (2) iff it is Open (1) in the source and
reachable from an Open top-row cell through orthogonally adjacent Open
cells; all other cells keep their source value; percolate() returns
True iff some cell of the last row is Filled; and on the n = 2 source
grid [[1,0],[1,1]] the final filled grid is [[2,0],[2,2]] with result
True. -/
theorem C1_percolate_correct (n : Nat) (g : PGrid) (hn : 0 < n)
    (hv : ValidSrc n g) :
    (∀ i, i < n → ∀ j, j < n →
      (percolateOn n g g i j = 2 ↔ (g i j = 1 ∧ Reach n g i j)) ∧
      (percolateOn n g g i j ≠ 2 → percolateOn n g g i j = g i j)) ∧
    (percResult n (percolateOn n g g) = true ↔
      ∃ c, c < n ∧ percolateOn n g g (n - 1) c = 2) ∧
    (∀ i, i < 2 → ∀ j, j < 2 → percolateOn 2 exSrc exSrc i j = exFilled i j) ∧
    percResult 2 (percolateOn 2 exSrc exSrc) = true := by
  obtain ⟨hcl, hsi, htop⟩ := percolateOn_spec n g hn hv
  refine ⟨?_, percResult_iff n (percolateOn n g g), by decide, by decide⟩
  intro i hi j hj
  constructor
  · constructor
    · intro h2
      rcases hsi i j hi hj with h | ⟨h1, _, hr⟩
      · rcases hv i hi j hj with h0 | h0
        · rw [h2, h0] at h
          cases h
        · rw [h2, h0] at h
          cases h
      · exact ⟨h1, hr⟩
    · rintro ⟨h1, hr⟩
      exact reach_filled n g hn hv i j hr
  · intro hne
    rcases hsi i j hi hj with h | ⟨_, h2, _⟩
    · exact h
    · exact absurd h2 hne

/-- Witness for C1 at the concrete n = 2 example grid. -/
theorem C1_percolate_correct_witness :
    percolateOn 2 exSrc exSrc 1 1 = 2 ↔ (exSrc 1 1 = 1 ∧ Reach 2 exSrc 1 1) :=
  ((C1_percolate_correct 2 exSrc (by decide)
    (by unfold ValidSrc; decide)).1
    1 (by decide) 1 (by decide)).1

/-- The seeding loop is a no-op on a filled grid that is already closed
and has every Open top-row column Filled. -/
theorem percSeeds_fixed (n : Nat) (g : PGrid) (hn : 0 < n) :
    ∀ (cols : List Nat) (gf : PGrid), (∀ c ∈ cols, c < n) →
    AllClosed n gf → (∀ c, c < n → g 0 c = 1 → gf 0 c = 2) →
    percSeeds n g gf cols = gf := by
  intro cols
  induction cols with
  | nil => intro gf _ _ _; rfl
  | cons c rest ih =>
    intro gf hmem hcl htop
    have hcn : c < n := hmem c (List.mem_cons_self c rest)
    by_cases hc : g 0 c = 1
    · have htwo : gf 0 c = 2 := htop c hcn hc
      have hunf : percSeeds n g gf (c :: rest) =
          percSeeds n g
            (flowRec (ones n (upd gf 0 c 2) + 1) n (upd gf 0 c 2) 0 c) rest := by
        simp only [percSeeds, if_pos hc]
      rw [hunf, upd_self gf 0 c 2 htwo,
        flowRec_noop (ones n gf) n gf 0 c (hcl 0 c hn hcn htwo)]
      exact ih gf (fun x hx => hmem x (List.mem_cons_of_mem c hx)) hcl htop
    · have hunf : percSeeds n g gf (c :: rest) = percSeeds n g gf rest := by
        simp only [percSeeds, if_neg hc]
      rw [hunf]
      exact ih gf (fun x hx => hmem x (List.mem_cons_of_mem c hx)) hcl htop

/-- Claim C9: a second percolate() call on the same instance leaves the
already-closed filled grid completely unchanged and returns the same
boolean as the first call. -/
theorem C9_percolate_idempotent (n : Nat) (g : PGrid) (hn : 0 < n)
    (hv : ValidSrc n g) :
    percolateOn n g (percolateOn n g g) = percolateOn n g g ∧
    percResult n (percolateOn n g (percolateOn n g g)) =
      percResult n (percolateOn n g g) := by
  obtain ⟨hcl, _, htop⟩ := percolateOn_spec n g hn hv
  have hfix : percolateOn n g (percolateOn n g g) = percolateOn n g g :=
    percSeeds_fixed n g hn (List.range n) (percolateOn n g g)
      (fun c hc => List.mem_range.mp hc) hcl htop
  exact ⟨hfix, by rw [hfix]⟩

/-- Witness for C9 at the concrete n = 2 example grid. -/
theorem C9_percolate_idempotent_witness :
    percolateOn 2 exSrc (percolateOn 2 exSrc exSrc) = percolateOn 2 exSrc exSrc :=
  (C9_percolate_idempotent 2 exSrc (by decide)
    (by unfold ValidSrc; decide)).1

/-!
The sandpile simulator.  AbelianSandpile.step drops a grain at a random
site and then runs the avalanche: Python iterates over the live list
ind_store while topple events append to it, so a full pass processes
every element in FIFO order until no more appends arrive; the trailing
del keeps exactly the coordinates appended during the pass, and the
outer while loop repeats until the list is empty.
-/

/-- In-bounds neighbor coordinates appended when cell (r, c) topples,
with the four boundary guards of AbelianSandpile.step in source order. -/
def toppleAppends (n r c : Nat) : List (Nat × Nat) :=
  (if r ≠ 0 then [(r - 1, c)] else []) ++
  (if r ≠ n - 1 then [(r + 1, c)] else []) ++
  (if c ≠ 0 then [(r, c - 1)] else []) ++
  (if c ≠ n - 1 then [(r, c + 1)] else [])

/-- Add one grain at a coordinate. -/
def incr (g : PGrid) (p : Nat × Nat) : PGrid := upd g p.1 p.2 (g p.1 p.2 + 1)

/-- A topple event: remove four grains from (r, c) and add one grain to
each in-bounds neighbor. -/
def toppleGrid (n : Nat) (g : PGrid) (r c : Nat) : PGrid :=
  (toppleAppends n r c).foldl incr (upd g r c (g r c - 4))

/-- Number of occurrences of a coordinate in a worklist. -/
def cnt (p : Nat × Nat) : List (Nat × Nat) → Nat
  | [] => 0
  | q :: l => cnt p l + if q = p then 1 else 0

theorem cnt_append (p : Nat × Nat) :
    ∀ l1 l2 : List (Nat × Nat), cnt p (l1 ++ l2) = cnt p l1 + cnt p l2 := by
  intro l1
  induction l1 with
  | nil => intro l2; simp [cnt]
  | cons q l ih =>
    intro l2
    rw [List.cons_append]
    simp only [cnt]
    rw [ih l2]
    omega

theorem cnt_pos_of_mem {p : Nat × Nat} :
    ∀ {l : List (Nat × Nat)}, p ∈ l → 0 < cnt p l := by
  intro l
  induction l with
  | nil => intro h; cases h
  | cons q l ih =>
    intro h
    rcases List.mem_cons.mp h with rfl | h
    · simp [cnt]
    · have := ih h
      simp only [cnt]
      omega

theorem mem_of_cnt_pos {p : Nat × Nat} :
    ∀ {l : List (Nat × Nat)}, 0 < cnt p l → p ∈ l := by
  intro l
  induction l with
  | nil => intro h; simp [cnt] at h
  | cons q l ih =>
    intro h
    simp only [cnt] at h
    by_cases hq : q = p
    · exact hq ▸ List.mem_cons_self q l
    · rw [if_neg hq] at h
      exact List.mem_cons_of_mem q (ih (by omega))

theorem incr_apply (g : PGrid) (p : Nat × Nat) (a b : Nat) :
    incr g p a b = g a b + if a = p.1 ∧ b = p.2 then 1 else 0 := by
  by_cases hab : a = p.1 ∧ b = p.2
  · obtain ⟨ha, hb⟩ := hab
    subst ha; subst hb
    rw [incr, upd_eq, if_pos ⟨rfl, rfl⟩]
  · rw [incr, upd_ne _ _ _ _ _ _ hab, if_neg hab]
    omega

theorem foldl_incr_apply : ∀ (l : List (Nat × Nat)) (g : PGrid) (a b : Nat),
    l.foldl incr g a b = g a b + cnt (a, b) l := by
  intro l
  induction l with
  | nil => intro g a b; simp [cnt]
  | cons q l ih =>
    intro g a b
    rw [List.foldl_cons, ih (incr g q) a b, incr_apply]
    simp only [cnt]
    rcases q with ⟨q1, q2⟩
    by_cases hab : a = q1 ∧ b = q2
    · obtain ⟨rfl, rfl⟩ := hab
      rw [if_pos ⟨rfl, rfl⟩, if_pos rfl]
      omega
    · rw [if_neg hab, if_neg (fun h => hab ⟨congrArg Prod.fst h |>.symm,
        congrArg Prod.snd h |>.symm⟩)]
      omega

theorem cnt_toppleAppends_self (n r c : Nat) :
    cnt (r, c) (toppleAppends n r c) = 0 := by
  unfold toppleAppends
  rw [cnt_append, cnt_append, cnt_append]
  have h1 : cnt (r, c) (if r ≠ 0 then [(r - 1, c)] else []) = 0 := by
    split_ifs with h
    · simp only [cnt]
      rw [if_neg (by intro hh; rw [Prod.mk.injEq] at hh; omega)]
    · rfl
  have h2 : cnt (r, c) (if r ≠ n - 1 then [(r + 1, c)] else []) = 0 := by
    split_ifs with h
    · simp only [cnt]
      rw [if_neg (by intro hh; rw [Prod.mk.injEq] at hh; omega)]
    · rfl
  have h3 : cnt (r, c) (if c ≠ 0 then [(r, c - 1)] else []) = 0 := by
    split_ifs with h
    · simp only [cnt]
      rw [if_neg (by intro hh; rw [Prod.mk.injEq] at hh; omega)]
    · rfl
  have h4 : cnt (r, c) (if c ≠ n - 1 then [(r, c + 1)] else []) = 0 := by
    split_ifs with h
    · simp only [cnt]
      rw [if_neg (by intro hh; rw [Prod.mk.injEq] at hh; omega)]
    · rfl
  rw [h1, h2, h3, h4]

theorem toppleGrid_apply (n : Nat) (g : PGrid) (r c a b : Nat) :
    toppleGrid n g r c a b =
      (if a = r ∧ b = c then g r c - 4 else g a b) +
        cnt (a, b) (toppleAppends n r c) := by
  rw [toppleGrid, foldl_incr_apply]
  by_cases hab : a = r ∧ b = c
  · obtain ⟨ha, hb⟩ := hab
    subst ha; subst hb
    rw [upd_eq, if_pos ⟨rfl, rfl⟩]
  · rw [upd_ne _ _ _ _ _ _ hab, if_neg hab]

theorem toppleGrid_self (n : Nat) (g : PGrid) (r c : Nat) :
    toppleGrid n g r c r c = g r c - 4 := by
  rw [toppleGrid_apply, if_pos ⟨rfl, rfl⟩, cnt_toppleAppends_self]
  omega

theorem toppleAppends_bounds {n r c : Nat} (hr : r < n) (hc : c < n) :
    ∀ p ∈ toppleAppends n r c, p.1 < n ∧ p.2 < n := by
  intro p hp
  unfold toppleAppends at hp
  simp only [List.mem_append] at hp
  rcases hp with ((h | h) | h) | h <;>
  · split_ifs at h with hg
    · rw [List.mem_singleton] at h
      subst h
      constructor <;> simp <;> omega
    · cases h

theorem toppleAppends_len (n r c : Nat) : (toppleAppends n r c).length ≤ 4 := by
  unfold toppleAppends
  simp only [List.length_append]
  split_ifs <;> simp

/-- One-dimensional concave weight: u n x is positive for x < n and its
second difference (with u = 0 off the grid) is 2 everywhere. -/
def u (n x : Nat) : Nat := (x + 1) * (n - x)

/-- Cell weight for the avalanche termination measure. -/
def w (n i j : Nat) : Nat := u n i + u n j

/-- Weighted grid mass: strictly decreases at every topple event. -/
def phi (n : Nat) (g : PGrid) : Nat :=
  ∑ p in Finset.range n ×ˢ Finset.range n, g p.1 p.2 * w n p.1 p.2

/-- Total number of grains in the region. -/
def mass (n : Nat) (g : PGrid) : Nat :=
  ∑ p in Finset.range n ×ˢ Finset.range n, g p.1 p.2

theorem mem_region {n a b : Nat} (ha : a < n) (hb : b < n) :
    ((a, b) : Nat × Nat) ∈ Finset.range n ×ˢ Finset.range n := by
  rw [Finset.mem_product]
  exact ⟨Finset.mem_range.mpr ha, Finset.mem_range.mpr hb⟩

theorem upd_off {g : PGrid} {a b v : Nat} {p : Nat × Nat} (h : p ≠ (a, b)) :
    upd g a b v p.1 p.2 = g p.1 p.2 := by
  apply upd_ne
  intro hh
  exact h (Prod.ext_iff.mpr hh)

theorem phi_upd (n : Nat) (g : PGrid) (a b v : Nat) (ha : a < n) (hb : b < n) :
    phi n (upd g a b v) + g a b * w n a b = phi n g + v * w n a b := by
  have hmem := mem_region ha hb
  have hsplit1 := Finset.sum_erase_add (Finset.range n ×ˢ Finset.range n)
    (fun p => upd g a b v p.1 p.2 * w n p.1 p.2) hmem
  have hsplit2 := Finset.sum_erase_add (Finset.range n ×ˢ Finset.range n)
    (fun p => g p.1 p.2 * w n p.1 p.2) hmem
  have hcong : ∑ p in (Finset.range n ×ˢ Finset.range n).erase (a, b),
      upd g a b v p.1 p.2 * w n p.1 p.2 =
      ∑ p in (Finset.range n ×ˢ Finset.range n).erase (a, b),
      g p.1 p.2 * w n p.1 p.2 := by
    apply Finset.sum_congr rfl
    intro p hp
    rw [upd_off (Finset.ne_of_mem_erase hp)]
  rw [phi, phi, ← hsplit1, ← hsplit2, hcong]
  simp only [upd_eq]
  omega

theorem mass_upd (n : Nat) (g : PGrid) (a b v : Nat) (ha : a < n) (hb : b < n) :
    mass n (upd g a b v) + g a b = mass n g + v := by
  have hmem := mem_region ha hb
  have hsplit1 := Finset.sum_erase_add (Finset.range n ×ˢ Finset.range n)
    (fun p => upd g a b v p.1 p.2) hmem
  have hsplit2 := Finset.sum_erase_add (Finset.range n ×ˢ Finset.range n)
    (fun p => g p.1 p.2) hmem
  have hcong : ∑ p in (Finset.range n ×ˢ Finset.range n).erase (a, b),
      upd g a b v p.1 p.2 =
      ∑ p in (Finset.range n ×ˢ Finset.range n).erase (a, b), g p.1 p.2 := by
    apply Finset.sum_congr rfl
    intro p hp
    rw [upd_off (Finset.ne_of_mem_erase hp)]
  rw [mass, mass, ← hsplit1, ← hsplit2, hcong]
  simp only [upd_eq]
  omega

theorem phi_incr {n : Nat} (g : PGrid) {a b : Nat} (ha : a < n) (hb : b < n) :
    phi n (incr g (a, b)) = phi n g + w n a b := by
  have h := phi_upd n g a b (g a b + 1) ha hb
  rw [add_mul, one_mul] at h
  show phi n (upd g a b (g a b + 1)) = phi n g + w n a b
  omega

theorem mass_incr {n : Nat} (g : PGrid) {a b : Nat} (ha : a < n) (hb : b < n) :
    mass n (incr g (a, b)) = mass n g + 1 := by
  have h := mass_upd n g a b (g a b + 1) ha hb
  show mass n (upd g a b (g a b + 1)) = mass n g + 1
  omega

theorem phi_foldl_incr {n : Nat} :
    ∀ (l : List (Nat × Nat)) (g : PGrid), (∀ p ∈ l, p.1 < n ∧ p.2 < n) →
    phi n (l.foldl incr g) = phi n g + ((l.map (fun p => w n p.1 p.2)).sum) := by
  intro l
  induction l with
  | nil => intro g _; simp
  | cons q l ih =>
    intro g hl
    obtain ⟨h1, h2⟩ := hl q (List.mem_cons_self q l)
    rw [List.foldl_cons, ih (incr g q) (fun p hp => hl p (List.mem_cons_of_mem q hp))]
    rcases q with ⟨q1, q2⟩
    rw [phi_incr g h1 h2]
    simp only [List.map_cons, List.sum_cons]
    omega

theorem mass_foldl_incr {n : Nat} :
    ∀ (l : List (Nat × Nat)) (g : PGrid), (∀ p ∈ l, p.1 < n ∧ p.2 < n) →
    mass n (l.foldl incr g) = mass n g + l.length := by
  intro l
  induction l with
  | nil => intro g _; simp
  | cons q l ih =>
    intro g hl
    obtain ⟨h1, h2⟩ := hl q (List.mem_cons_self q l)
    rw [List.foldl_cons, ih (incr g q) (fun p hp => hl p (List.mem_cons_of_mem q hp))]
    rcases q with ⟨q1, q2⟩
    rw [mass_incr g h1 h2]
    simp only [List.length_cons]
    omega

/-- The boundary-aware concavity bound for the one-dimensional weight. -/
theorem rowBound {n x : Nat} (hx : x < n) :
    (if x ≠ 0 then u n (x - 1) else 0) + (if x ≠ n - 1 then u n (x + 1) else 0) + 2
      ≤ 2 * u n x := by
  by_cases h0 : x = 0
  · subst h0
    rw [if_neg (by omega)]
    by_cases h1 : (0 : Nat) = n - 1
    · rw [if_neg (by omega)]
      unfold u
      omega
    · rw [if_pos (by omega)]
      unfold u
      omega
  · by_cases h1 : x = n - 1
    · rw [if_pos h0, if_neg (by omega)]
      obtain ⟨m, rfl⟩ : ∃ m, n = m + 2 := ⟨n - 2, by omega⟩
      subst h1
      unfold u
      have e1 : m + 2 - 1 - 1 = m := by omega
      have e2 : m + 2 - m = 2 := by omega
      have e3 : m + 2 - (m + 2 - 1) = 1 := by omega
      rw [e1, e2, e3]
      have e4 : m + 2 - 1 = m + 1 := by omega
      rw [e4]
      omega
    · rw [if_pos h0, if_pos h1]
      obtain ⟨y, rfl⟩ : ∃ y, x = y + 1 := ⟨x - 1, by omega⟩
      obtain ⟨m, rfl⟩ : ∃ m, n = y + 3 + m := ⟨n - (y + 3), by omega⟩
      unfold u
      have e1 : y + 1 - 1 = y := by omega
      have e2 : y + 3 + m - y = m + 3 := by omega
      have e3 : y + 3 + m - (y + 1 + 1) = m + 1 := by omega
      have e4 : y + 3 + m - (y + 1) = m + 2 := by omega
      rw [e1, e2, e3, e4]
      exact Nat.le_of_eq (by ring)

/-- Weight lost at a topple: the toppled cell gives up 4 w while the
in-bounds neighbors regain at most 4 w - 4 in total. -/
theorem keyIneq {n r c : Nat} (hr : r < n) (hc : c < n) :
    ((toppleAppends n r c).map (fun p => w n p.1 p.2)).sum + 4 ≤ 4 * w n r c := by
  have hpiece : ∀ (P : Prop) [Decidable P] (q : Nat × Nat),
      (((if P then [q] else []).map (fun p => w n p.1 p.2)).sum) =
        if P then w n q.1 q.2 else 0 := by
    intro P _ q
    split_ifs <;> simp
  have hs : ((toppleAppends n r c).map (fun p => w n p.1 p.2)).sum =
      (if r ≠ 0 then w n (r - 1) c else 0) +
      ((if r ≠ n - 1 then w n (r + 1) c else 0) +
      ((if c ≠ 0 then w n r (c - 1) else 0) +
       (if c ≠ n - 1 then w n r (c + 1) else 0))) := by
    unfold toppleAppends
    rw [List.map_append, List.sum_append, List.map_append, List.sum_append,
      List.map_append, List.sum_append, hpiece, hpiece, hpiece, hpiece]
    dsimp only
    omega
  rw [hs]
  have hw : w n r c = u n r + u n c := rfl
  have hr1 : (if r ≠ 0 then w n (r - 1) c else 0) ≤
      (if r ≠ 0 then u n (r - 1) else 0) + u n c := by
    split_ifs
    · exact Nat.le_refl _
    · exact Nat.zero_le _
  have hr2 : (if r ≠ n - 1 then w n (r + 1) c else 0) ≤
      (if r ≠ n - 1 then u n (r + 1) else 0) + u n c := by
    split_ifs
    · exact Nat.le_refl _
    · exact Nat.zero_le _
  have hc1 : (if c ≠ 0 then w n r (c - 1) else 0) ≤
      (if c ≠ 0 then u n (c - 1) else 0) + u n r := by
    split_ifs
    · exact Nat.le_of_eq (by rw [w]; omega)
    · exact Nat.zero_le _
  have hc2 : (if c ≠ n - 1 then w n r (c + 1) else 0) ≤
      (if c ≠ n - 1 then u n (c + 1) else 0) + u n r := by
    split_ifs
    · exact Nat.le_of_eq (by rw [w]; omega)
    · exact Nat.zero_le _
  have hbr := rowBound (n := n) hr
  have hbc := rowBound (n := n) hc
  omega

/-- A topple at an overfull in-bounds cell decreases phi by at least 4. -/
theorem phi_topple {n : Nat} {g : PGrid} {r c : Nat} (hr : r < n) (hc : c < n)
    (h4 : 4 ≤ g r c) : phi n (toppleGrid n g r c) + 4 ≤ phi n g := by
  rw [toppleGrid, phi_foldl_incr _ _ (toppleAppends_bounds hr hc)]
  have hu := phi_upd n g r c (g r c - 4) hr hc
  have hrw : g r c * w n r c = (g r c - 4) * w n r c + 4 * w n r c := by
    rw [← add_mul]
    congr 1
    omega
  rw [hrw] at hu
  have hkey := keyIneq hr hc
  generalize hA : (g r c - 4) * w n r c = A at hu
  generalize hB : 4 * w n r c = B at hu hkey
  omega

/-- A topple at an overfull in-bounds cell changes the total mass by the
number of in-bounds neighbors minus the 4 grains removed. -/
theorem mass_topple {n : Nat} {g : PGrid} {r c : Nat} (hr : r < n) (hc : c < n)
    (h4 : 4 ≤ g r c) :
    mass n (toppleGrid n g r c) + 4 = mass n g + (toppleAppends n r c).length := by
  rw [toppleGrid, mass_foldl_incr _ _ (toppleAppends_bounds hr hc)]
  have hu := mass_upd n g r c (g r c - 4) hr hc
  omega

/-- Everything on a worklist lies in the region. -/
def InBL (n : Nat) (l : List (Nat × Nat)) : Prop := ∀ p ∈ l, p.1 < n ∧ p.2 < n

/-- The avalanche invariant: a cell exceeds 3 only by as many grains as
it has pending occurrences on the worklist. -/
def InvQ (n : Nat) (g : PGrid) (l : List (Nat × Nat)) : Prop :=
  ∀ a b, a < n → b < n → g a b ≤ 3 + cnt (a, b) l

/-- One legal topple event: some in-bounds cell with at least 4 grains
topples. -/
def topRel (n : Nat) (g g' : PGrid) : Prop :=
  ∃ r c, r < n ∧ c < n ∧ 4 ≤ g r c ∧ g' = toppleGrid n g r c

/-- The for loop of step(): Python iterates over the live list while
topple events append to it, which processes the whole list in FIFO order
to exhaustion.  The acc argument records every coordinate appended
during the pass (the part of the list beyond the initial start_len
elements, which survives the del).  Fuel-indexed; the fuel used by
stepLoop is proved sufficient. -/
def forPass : Nat → Nat → PGrid → List (Nat × Nat) → List (Nat × Nat) →
    Option (PGrid × List (Nat × Nat))
  | 0, _, _, _, _ => none
  | fuel + 1, n, g, todo, acc =>
    match todo with
    | [] => some (g, acc)
    | p :: rest =>
      if g p.1 p.2 < 4 then forPass fuel n g rest acc
      else
        forPass fuel n (toppleGrid n g p.1 p.2) (rest ++ toppleAppends n p.1 p.2)
          (acc ++ toppleAppends n p.1 p.2)

/-- The while loop of step(): run one full pass over the live list, keep
only the coordinates appended during the pass (the del), and repeat
until the list is empty. -/
def stepLoop : Nat → Nat → PGrid → List (Nat × Nat) → Option PGrid
  | 0, _, _, _ => none
  | fuel + 1, n, g, l =>
    match l with
    | [] => some g
    | p :: rest =>
      match forPass (phi n g + (p :: rest).length + 1) n g (p :: rest) [] with
      | none => none
      | some (g', acc) => stepLoop fuel n g' acc

/-- The pass terminates with enough fuel, topples only legally, keeps
worklist coordinates in bounds, and leaves every region cell at 3 or
less.  The fuel bound is the worklist length plus phi. -/
theorem forPass_main : ∀ (k fuel n : Nat) (g : PGrid) (todo acc : List (Nat × Nat)),
    todo.length + phi n g ≤ k → k < fuel → InBL n todo → InvQ n g todo →
    ∃ g' app, forPass fuel n g todo acc = some (g', acc ++ app) ∧
      InBL n app ∧ Relation.ReflTransGen (topRel n) g g' ∧
      (∀ a b, a < n → b < n → g' a b ≤ 3) := by
  intro k
  induction k with
  | zero =>
    intro fuel n g todo acc hk hf hb hq
    obtain ⟨fl, rfl⟩ : ∃ fl, fuel = fl + 1 := ⟨fuel - 1, by omega⟩
    have htodo : todo = [] := List.length_eq_zero.mp (by omega)
    subst htodo
    refine ⟨g, [], by simp [forPass], fun p hp => absurd hp (List.not_mem_nil p),
      Relation.ReflTransGen.refl, ?_⟩
    intro a b ha hb'
    have := hq a b ha hb'
    simp only [cnt] at this
    omega
  | succ k ih =>
    intro fuel n g todo acc hk hf hb hq
    obtain ⟨fl, rfl⟩ : ∃ fl, fuel = fl + 1 := ⟨fuel - 1, by omega⟩
    rcases todo with _ | ⟨p, rest⟩
    · refine ⟨g, [], by simp [forPass], fun p hp => absurd hp (List.not_mem_nil p),
        Relation.ReflTransGen.refl, ?_⟩
      intro a b ha hb'
      have := hq a b ha hb'
      simp only [cnt] at this
      omega
    · rcases p with ⟨p1, p2⟩
      have hp1 : p1 < n := (hb (p1, p2) (List.mem_cons_self _ rest)).1
      have hp2 : p2 < n := (hb (p1, p2) (List.mem_cons_self _ rest)).2
      by_cases hlt : g p1 p2 < 4
      · have hunf : forPass (fl + 1) n g ((p1, p2) :: rest) acc =
            forPass fl n g rest acc := by
          simp only [forPass, if_pos hlt]
        have hq' : InvQ n g rest := by
          intro a b ha hb'
          have := hq a b ha hb'
          simp only [cnt] at this
          by_cases hab : ((p1, p2) : Nat × Nat) = (a, b)
          · rw [Prod.mk.injEq] at hab
            obtain ⟨rfl, rfl⟩ := hab
            omega
          · rw [if_neg hab] at this
            omega
        have hlen : rest.length + phi n g ≤ k := by
          simp only [List.length_cons] at hk
          omega
        obtain ⟨g', app, heq, happ, hr, hs⟩ :=
          ih fl n g rest acc hlen (by omega) (fun q hq' => hb q (List.mem_cons_of_mem _ hq')) hq'
        exact ⟨g', app, hunf ▸ heq, happ, hr, hs⟩
      · have h4 : 4 ≤ g p1 p2 := by omega
        have hunf : forPass (fl + 1) n g ((p1, p2) :: rest) acc =
            forPass fl n (toppleGrid n g p1 p2)
              (rest ++ toppleAppends n p1 p2) (acc ++ toppleAppends n p1 p2) := by
          simp only [forPass, if_neg hlt]
        have hphid := phi_topple hp1 hp2 h4
        have hlen := toppleAppends_len n p1 p2
        have hmeas : (rest ++ toppleAppends n p1 p2).length +
            phi n (toppleGrid n g p1 p2) ≤ k := by
          rw [List.length_append]
          simp only [List.length_cons] at hk
          omega
        have hb' : InBL n (rest ++ toppleAppends n p1 p2) := by
          intro q hqm
          rcases List.mem_append.mp hqm with hqm | hqm
          · exact hb q (List.mem_cons_of_mem _ hqm)
          · exact toppleAppends_bounds hp1 hp2 q hqm
        have hq' : InvQ n (toppleGrid n g p1 p2) (rest ++ toppleAppends n p1 p2) := by
          intro a b ha hb''
          have hold := hq a b ha hb''
          simp only [cnt] at hold
          rw [toppleGrid_apply, cnt_append]
          by_cases hab : a = p1 ∧ b = p2
          · obtain ⟨rfl, rfl⟩ := hab
            rw [if_pos rfl] at hold
            rw [if_pos ⟨rfl, rfl⟩]
            omega
          · have hne : ((p1, p2) : Nat × Nat) ≠ (a, b) := by
              rw [Ne, Prod.mk.injEq]
              intro hh
              exact hab ⟨hh.1.symm, hh.2.symm⟩
            rw [if_neg hab]
            rw [if_neg hne] at hold
            omega
        obtain ⟨g', app, heq, happ, hr, hs⟩ := ih fl n (toppleGrid n g p1 p2)
          (rest ++ toppleAppends n p1 p2) (acc ++ toppleAppends n p1 p2)
          hmeas (by omega) hb' hq'
        refine ⟨g', toppleAppends n p1 p2 ++ app, ?_, ?_, ?_, hs⟩
        · rw [hunf, heq, List.append_assoc]
        · intro q hqm
          rcases List.mem_append.mp hqm with hqm | hqm
          · exact toppleAppends_bounds hp1 hp2 q hqm
          · exact happ q hqm
        · exact Relation.ReflTransGen.head ⟨p1, p2, hp1, hp2, h4, rfl⟩ hr

/-- With no overfull cell on the worklist, a pass is a pure scan: it
changes nothing and appends nothing. -/
theorem forPass_stable : ∀ (todo : List (Nat × Nat)) (fuel n : Nat) (g : PGrid)
    (acc : List (Nat × Nat)), todo.length < fuel →
    (∀ p ∈ todo, g p.1 p.2 < 4) →
    forPass fuel n g todo acc = some (g, acc) := by
  intro todo
  induction todo with
  | nil =>
    intro fuel n g acc hf _
    obtain ⟨fl, rfl⟩ : ∃ fl, fuel = fl + 1 := ⟨fuel - 1, by omega⟩
    simp [forPass]
  | cons p rest ih =>
    intro fuel n g acc hf hlt
    obtain ⟨fl, rfl⟩ : ∃ fl, fuel = fl + 1 := ⟨fuel - 1, by omega⟩
    have hunf : forPass (fl + 1) n g (p :: rest) acc = forPass fl n g rest acc := by
      simp only [forPass, if_pos (hlt p (List.mem_cons_self _ rest))]
    rw [hunf]
    exact ih fl n g acc (by simp at hf; omega)
      (fun q hq => hlt q (List.mem_cons_of_mem _ hq))

/-- The while loop of step() terminates: the first pass stabilizes the
grid, the second pass scans the appended coordinates without any topple
and keeps nothing, and the loop then sees an empty list. -/
theorem stepLoop_ok (n : Nat) (g : PGrid) (l : List (Nat × Nat)) (k : Nat)
    (hb : InBL n l) (hq : InvQ n g l) :
    ∃ g', stepLoop (k + 3) n g l = some g' ∧
      Relation.ReflTransGen (topRel n) g g' ∧
      (∀ a b, a < n → b < n → g' a b ≤ 3) := by
  rcases l with _ | ⟨p, rest⟩
  · refine ⟨g, by simp [stepLoop], Relation.ReflTransGen.refl, ?_⟩
    intro a b ha hb'
    have := hq a b ha hb'
    simp only [cnt] at this
    omega
  · obtain ⟨g1, app, heq, happ, hrtg, hstab⟩ :=
      forPass_main (((p :: rest) : List (Nat × Nat)).length + phi n g)
        (phi n g + ((p :: rest) : List (Nat × Nat)).length + 1) n g (p :: rest) []
        (Nat.le_refl _) (by omega) hb hq
    rw [List.nil_append] at heq
    have hunf1 : stepLoop (k + 3) n g (p :: rest) = stepLoop (k + 2) n g1 app := by
      show (match forPass (phi n g + ((p :: rest) : List (Nat × Nat)).length + 1) n g
          (p :: rest) [] with
        | none => none
        | some (g', acc) => stepLoop (k + 2) n g' acc) = stepLoop (k + 2) n g1 app
      rw [heq]
    rw [hunf1]
    rcases app with _ | ⟨q, qs⟩
    · exact ⟨g1, by simp [stepLoop], hrtg, hstab⟩
    · have hpass2 : forPass (phi n g1 + ((q :: qs) : List (Nat × Nat)).length + 1) n g1
          (q :: qs) [] = some (g1, []) := by
        apply forPass_stable
        · omega
        · intro pp hpp
          obtain ⟨h1, h2⟩ := happ pp hpp
          have := hstab pp.1 pp.2 h1 h2
          omega
      have hunf2 : stepLoop (k + 2) n g1 (q :: qs) = stepLoop (k + 1) n g1 [] := by
        show (match forPass (phi n g1 + ((q :: qs) : List (Nat × Nat)).length + 1) n g1
            (q :: qs) [] with
          | none => none
          | some (g', acc) => stepLoop (k + 1) n g' acc) = stepLoop (k + 1) n g1 []
        rw [hpass2]
      rw [hunf2]
      exact ⟨g1, by simp [stepLoop], hrtg, hstab⟩

/-- Engine state of an AbelianSandpile instance: the live grid, the
history list, and the position reached in the seeded random stream. -/
structure SandState where
  grid : PGrid
  hist : List PGrid
  ctr : Nat

/-- Modelled from the spec: numpy's seeded global random stream (an
external collaborator of this repository).  np.random.seed(random_state)
fixes the stream, subsequent draws are sequential; we abstract the
stream as a function f of the seed and the draw index, and a
np.random.choice over m values as a draw reduced mod m.  Construction
consumes one draw per cell in row-major order, giving values in
{0,1,2,3}. -/
def initGrid (f : Nat → Nat → Nat) (seed n : Nat) : PGrid :=
  fun i j => f seed (i * n + j) % 4

/-- AbelianSandpile.__init__: the seeded random grid plus one initial
history snapshot; n * n draws are consumed. -/
def initState (f : Nat → Nat → Nat) (seed n : Nat) : SandState :=
  { grid := initGrid f seed n, hist := [initGrid f seed n], ctr := n * n }

/-- The two np.random.choice(n, 2) draws of step() continuing the
running stream at position ctr. -/
def dropSite (f : Nat → Nat → Nat) (seed n ctr : Nat) : Nat × Nat :=
  (f seed ctr % n, f seed (ctr + 1) % n)

/-- AbelianSandpile.step: draw the drop coordinates from the running
stream, add one grain there, and run the avalanche loop.  The history
list is not touched. -/
def sandStep (f : Nat → Nat → Nat) (seed n : Nat) (s : SandState) :
    Option SandState :=
  (stepLoop (phi n (incr s.grid (dropSite f seed n s.ctr)) + 3) n
      (incr s.grid (dropSite f seed n s.ctr)) [dropSite f seed n s.ctr]).map
    (fun g' => { grid := g', hist := s.hist, ctr := s.ctr + 2 })

/-- AbelianSandpile.simulate: run step() n_step times, appending a copy
of the grid to history after each call. -/
def simulate (f : Nat → Nat → Nat) (seed n : Nat) :
    Nat → SandState → Option SandState
  | 0, s => some s
  | k + 1, s =>
    (sandStep f seed n s).bind fun s1 =>
      simulate f seed n k
        { grid := s1.grid, hist := s1.hist ++ [s1.grid], ctr := s1.ctr }

/-- Every region cell holds at most 3 grains. -/
def StableN (n : Nat) (g : PGrid) : Prop := ∀ a, a < n → ∀ b, b < n → g a b ≤ 3

theorem dropSite_bounds (f : Nat → Nat → Nat) (seed n ctr : Nat) (hn : 0 < n) :
    (dropSite f seed n ctr).1 < n ∧ (dropSite f seed n ctr).2 < n :=
  ⟨Nat.mod_lt _ hn, Nat.mod_lt _ hn⟩

/-- A completed step() from a stable state: it succeeds, restores the
invariant, advances the stream by two draws, and leaves history alone. -/
theorem sandStep_ok (f : Nat → Nat → Nat) (seed n : Nat) (s : SandState)
    (hn : 0 < n) (hs : StableN n s.grid) :
    ∃ g', sandStep f seed n s =
        some { grid := g', hist := s.hist, ctr := s.ctr + 2 } ∧
      StableN n g' := by
  obtain ⟨hr, hc⟩ := dropSite_bounds f seed n s.ctr hn
  have hbl : InBL n [dropSite f seed n s.ctr] := by
    intro p hp
    rw [List.mem_singleton] at hp
    subst hp
    exact ⟨hr, hc⟩
  have hq : InvQ n (incr s.grid (dropSite f seed n s.ctr))
      [dropSite f seed n s.ctr] := by
    intro a b ha hb
    rcases dropSite f seed n s.ctr with ⟨r, c⟩
    rw [incr_apply]
    simp only [cnt]
    by_cases hab : a = r ∧ b = c
    · obtain ⟨rfl, rfl⟩ := hab
      rw [if_pos ⟨rfl, rfl⟩, if_pos rfl]
      have := hs a ha b hb
      omega
    · rw [if_neg hab, if_neg (fun hh => hab
        ⟨(congrArg Prod.fst hh).symm, (congrArg Prod.snd hh).symm⟩)]
      have := hs a ha b hb
      omega
  obtain ⟨g', hloop, _, hstab⟩ := stepLoop_ok n
    (incr s.grid (dropSite f seed n s.ctr)) [dropSite f seed n s.ctr]
    (phi n (incr s.grid (dropSite f seed n s.ctr))) hbl hq
  refine ⟨g', ?_, fun a ha b hb => hstab a b ha hb⟩
  rw [sandStep, hloop, Option.map_some']

/-- Full accounting of a simulate(k) run from a stable state: it
succeeds, keeps every grid and every snapshot stable, advances the
stream by exactly two draws per step, appends exactly one snapshot per
step without touching existing entries, and each new snapshot is the
grid after the corresponding prefix of steps. -/
theorem simulate_ok (f : Nat → Nat → Nat) (seed n : Nat) (hn : 0 < n) :
    ∀ (k : Nat) (s : SandState), StableN n s.grid → (∀ h ∈ s.hist, StableN n h) →
    ∃ s', simulate f seed n k s = some s' ∧ StableN n s'.grid ∧
      (∀ h ∈ s'.hist, StableN n h) ∧
      s'.ctr = s.ctr + 2 * k ∧
      s'.hist.length = s.hist.length + k ∧
      s'.hist.take s.hist.length = s.hist ∧
      (∀ i, i < k → ∃ si, simulate f seed n (i + 1) s = some si ∧
        s'.hist.get? (s.hist.length + i) = some si.grid) := by
  intro k
  induction k with
  | zero =>
    intro s hs hh
    refine ⟨s, rfl, hs, hh, by omega, by omega, List.take_length s.hist, ?_⟩
    intro i hi
    omega
  | succ k ih =>
    intro s hs hh
    obtain ⟨g', hstep, hstab⟩ := sandStep_ok f seed n s hn hs
    have hunf : ∀ m, simulate f seed n (m + 1) s =
        simulate f seed n m
          { grid := g', hist := s.hist ++ [g'], ctr := s.ctr + 2 } := by
      intro m
      show (sandStep f seed n s).bind _ = _
      rw [hstep]
      rfl
    have hh2 : ∀ h ∈ s.hist ++ [g'], StableN n h := by
      intro h hm
      rcases List.mem_append.mp hm with hm | hm
      · exact hh h hm
      · rw [List.mem_singleton] at hm
        subst hm
        exact hstab
    obtain ⟨s', heq, hst', hh', hctr, hlen, htake, hent⟩ :=
      ih { grid := g', hist := s.hist ++ [g'], ctr := s.ctr + 2 } hstab hh2
    have hctr' : s'.ctr = s.ctr + 2 + 2 * k := hctr
    have hlen' : s'.hist.length = (s.hist ++ [g']).length + k := hlen
    have htake' : s'.hist.take (s.hist ++ [g']).length = s.hist ++ [g'] := htake
    have hlapp : (s.hist ++ [g']).length = s.hist.length + 1 := by
      rw [List.length_append]
      rfl
    refine ⟨s', by rw [hunf k]; exact heq, hst', hh', by omega,
      by omega, ?_, ?_⟩
    · have h1 : s'.hist.take s.hist.length =
          (s'.hist.take ((s.hist ++ [g']).length)).take s.hist.length := by
        rw [List.take_take]
        congr 1
        omega
      rw [h1, htake']
      exact List.take_left s.hist [g']
    · intro i hi
      rcases i with _ | j
      · refine ⟨{ grid := g', hist := s.hist ++ [g'], ctr := s.ctr + 2 },
          by rw [hunf 0]; rfl, ?_⟩
        have h2 : s'.hist.get? s.hist.length =
            (s'.hist.take ((s.hist ++ [g']).length)).get? s.hist.length :=
          (List.get?_take (by omega)).symm
        rw [htake'] at h2
        rw [Nat.add_zero, h2]
        exact List.get?_concat_length s.hist g'
      · obtain ⟨sj, hsj, hsj2⟩ := hent j (by omega)
        refine ⟨sj, ?_, ?_⟩
        · rw [hunf (j + 1)]
          exact hsj
        · have h3 : s.hist.length + (j + 1) = (s.hist ++ [g']).length + j := by
            omega
          rw [h3]
          exact hsj2

/-- Claim C2: for every n >= 1 and every seeded stream, the initial grid
has every cell in {0,1,2,3} (that is, at most 3), and after every
completed step of a simulate run every region cell is at most 3, so
every snapshot recorded in history is at most 3 everywhere. -/
theorem C2_stability (f : Nat → Nat → Nat) (seed n : Nat) (hn : 0 < n) :
    (∀ i j, initGrid f seed n i j ≤ 3) ∧
    ∀ k, ∃ s', simulate f seed n k (initState f seed n) = some s' ∧
      StableN n s'.grid ∧ (∀ h ∈ s'.hist, StableN n h) := by
  have hinit : ∀ i j, initGrid f seed n i j ≤ 3 := by
    intro i j
    exact Nat.le_of_lt_succ (Nat.mod_lt _ (by omega))
  refine ⟨hinit, ?_⟩
  intro k
  obtain ⟨s', heq, h1, h2, _⟩ := simulate_ok f seed n hn k (initState f seed n)
    (fun a _ b _ => hinit a b)
    (by
      intro h hm
      rw [show (initState f seed n).hist = [initGrid f seed n] from rfl,
        List.mem_singleton] at hm
      subst hm
      exact fun a _ b _ => hinit a b)
  exact ⟨s', heq, h1, h2⟩

/-- Witness for C2 at a concrete stream, seed and size. -/
theorem C2_stability_witness :
    (∀ i j, initGrid (fun _ i => i) 0 2 i j ≤ 3) ∧
    ∀ k, ∃ s', simulate (fun _ i => i) 0 2 k (initState (fun _ i => i) 0 2) =
        some s' ∧ StableN 2 s'.grid ∧ (∀ h ∈ s'.hist, StableN 2 h) :=
  C2_stability (fun _ i => i) 0 2 (by decide)

/-- The relaxation loop of step() from a stable grid plus one dropped
grain terminates and leaves every region cell below 4. -/
theorem stepLoop_stabilizes (n : Nat) (g : PGrid) (r c : Nat)
    (hs : StableN n g) (hr : r < n) (hc : c < n) :
    ∃ g', stepLoop (phi n (incr g (r, c)) + 3) n (incr g (r, c)) [(r, c)] =
        some g' ∧ ∀ a, a < n → ∀ b, b < n → g' a b < 4 := by
  have hbl : InBL n [(r, c)] := by
    intro p hp
    rw [List.mem_singleton] at hp
    subst hp
    exact ⟨hr, hc⟩
  have hq : InvQ n (incr g (r, c)) [(r, c)] := by
    intro a b ha hb
    rw [incr_apply]
    simp only [cnt]
    by_cases hab : a = r ∧ b = c
    · obtain ⟨rfl, rfl⟩ := hab
      rw [if_pos ⟨rfl, rfl⟩, if_pos rfl]
      have := hs a ha b hb
      omega
    · rw [if_neg hab, if_neg (fun hh => hab
        ⟨(congrArg Prod.fst hh).symm, (congrArg Prod.snd hh).symm⟩)]
      have := hs a ha b hb
      omega
  obtain ⟨g', hloop, _, hstab⟩ :=
    stepLoop_ok n (incr g (r, c)) [(r, c)] (phi n (incr g (r, c))) hbl hq
  refine ⟨g', hloop, ?_⟩
  intro a ha b hb
  have := hstab a b ha hb
  omega

/-- Claim C3: from a stable sandpile grid, for every perturbation site
the relaxation loop of step() terminates (the worklist empties and the
loop returns within the computed fuel) and at termination no region
cell holds 4 or more grains. -/
theorem C3_relaxation_terminates (n : Nat) (g : PGrid) (r c : Nat) (hn : 0 < n)
    (hs : StableN n g) (hr : r < n) (hc : c < n) :
    ∃ g', stepLoop (phi n (incr g (r, c)) + 3) n (incr g (r, c)) [(r, c)] =
        some g' ∧ ∀ a, a < n → ∀ b, b < n → g' a b < 4 :=
  stepLoop_stabilizes n g r c hs hr hc

/-- Witness for C3 at a concrete stable grid and site. -/
theorem C3_relaxation_terminates_witness :
    ∃ g', stepLoop (phi 1 (incr (fun _ _ => 3) (0, 0)) + 3) 1
        (incr (fun _ _ => 3) (0, 0)) [(0, 0)] = some g' ∧
      ∀ a, a < 1 → ∀ b, b < 1 → g' a b < 4 :=
  C3_relaxation_terminates 1 (fun _ _ => 3) 0 0 (by decide)
    (by unfold StableN; decide) (by decide) (by decide)

/-- Claim C5: two engines whose seeded streams agree draw for draw
produce bit-identical initial grids and element-wise identical history
sequences across simulate(k), and the perturbation draws continue the
stream used for initialization (the counter after init is n * n, after
k steps n * n + 2 * k) rather than a reseeded one. -/
theorem C5_determinism (f fp : Nat → Nat → Nat) (seed seedp n k : Nat)
    (hn : 0 < n) (hf : ∀ i, f seed i = fp seedp i) :
    ∃ s s', simulate f seed n k (initState f seed n) = some s ∧
      simulate fp seedp n k (initState fp seedp n) = some s' ∧
      s.hist = s'.hist ∧ s.grid = s'.grid ∧
      (initState f seed n).ctr = n * n ∧
      s.ctr = n * n + 2 * k ∧ s'.ctr = n * n + 2 * k := by
  have hg : initGrid f seed n = initGrid fp seedp n := by
    funext i j
    unfold initGrid
    rw [hf]
  have hinit : initState f seed n = initState fp seedp n := by
    unfold initState
    rw [hg]
  have hstepc : ∀ s, sandStep f seed n s = sandStep fp seedp n s := by
    intro s
    unfold sandStep dropSite
    rw [hf, hf]
  have hsimc : ∀ (m : Nat) (s : SandState),
      simulate f seed n m s = simulate fp seedp n m s := by
    intro m
    induction m with
    | zero => intro s; rfl
    | succ m ihm =>
      intro s
      show (sandStep f seed n s).bind _ = (sandStep fp seedp n s).bind _
      rw [hstepc s]
      cases hx : sandStep fp seedp n s with
      | none => rfl
      | some s1 => exact ihm _
  have hst : StableN n (initState f seed n).grid := by
    intro a _ b _
    exact Nat.le_of_lt_succ (Nat.mod_lt _ (by omega))
  have hhh : ∀ h ∈ (initState f seed n).hist, StableN n h := by
    intro h hm
    rw [show (initState f seed n).hist = [initGrid f seed n] from rfl,
      List.mem_singleton] at hm
    subst hm
    intro a _ b _
    exact Nat.le_of_lt_succ (Nat.mod_lt _ (by omega))
  obtain ⟨s, heq, _, _, hctr, _⟩ := simulate_ok f seed n hn k (initState f seed n)
    hst hhh
  have hctr' : s.ctr = n * n + 2 * k := hctr
  refine ⟨s, s, heq, ?_, rfl, rfl, rfl, hctr', hctr'⟩
  rw [← hinit, ← hsimc]
  exact heq

/-- Witness for C5 at a concrete stream, size and step count. -/
theorem C5_determinism_witness :
    ∃ s s', simulate (fun _ i => i) 0 2 1 (initState (fun _ i => i) 0 2) =
        some s ∧
      simulate (fun _ i => i + 0) 5 2 1 (initState (fun _ i => i + 0) 5 2) =
        some s' ∧
      s.hist = s'.hist ∧ s.grid = s'.grid ∧
      (initState (fun _ i => i) 0 2).ctr = 2 * 2 ∧
      s.ctr = 2 * 2 + 2 * 1 ∧ s'.ctr = 2 * 2 + 2 * 1 :=
  C5_determinism (fun _ i => i) (fun _ i => i + 0) 0 5 2 1 (by decide)
    (fun i => rfl)

/-- Claim C10: step() never modifies history; simulate(k) grows history
by exactly k entries, never alters an existing entry, and each appended
entry is the grid reached after the corresponding number of steps. -/
theorem C10_history_frame (f : Nat → Nat → Nat) (seed n : Nat) (s : SandState)
    (hn : 0 < n) (hs : StableN n s.grid) (hh : ∀ h ∈ s.hist, StableN n h) :
    (∀ s', sandStep f seed n s = some s' → s'.hist = s.hist) ∧
    ∀ k, ∃ s', simulate f seed n k s = some s' ∧
      s'.hist.length = s.hist.length + k ∧
      s'.hist.take s.hist.length = s.hist ∧
      (∀ i, i < k → ∃ si, simulate f seed n (i + 1) s = some si ∧
        s'.hist.get? (s.hist.length + i) = some si.grid) := by
  constructor
  · intro s' h
    rw [sandStep] at h
    rcases hx : stepLoop (phi n (incr s.grid (dropSite f seed n s.ctr)) + 3) n
        (incr s.grid (dropSite f seed n s.ctr)) [dropSite f seed n s.ctr] with
      _ | g'
    · rw [hx] at h
      cases h
    · rw [hx, Option.map_some'] at h
      injection h with h
      rw [← h]
  · intro k
    obtain ⟨s', heq, _, _, _, h5, h6, h7⟩ := simulate_ok f seed n hn k s hs hh
    exact ⟨s', heq, h5, h6, h7⟩

/-- Witness for C10 at a concrete state. -/
theorem C10_history_frame_witness :
    (∀ s', sandStep (fun _ i => i) 0 1 ⟨fun _ _ => 0, [], 0⟩ = some s' →
      s'.hist = (⟨fun _ _ => 0, [], 0⟩ : SandState).hist) ∧
    ∀ k, ∃ s', simulate (fun _ i => i) 0 1 k ⟨fun _ _ => 0, [], 0⟩ = some s' ∧
      s'.hist.length = (⟨fun _ _ => 0, [], 0⟩ : SandState).hist.length + k ∧
      s'.hist.take (⟨fun _ _ => 0, [], 0⟩ : SandState).hist.length =
        (⟨fun _ _ => 0, [], 0⟩ : SandState).hist ∧
      (∀ i, i < k → ∃ si,
        simulate (fun _ i => i) 0 1 (i + 1) ⟨fun _ _ => 0, [], 0⟩ = some si ∧
        s'.hist.get? ((⟨fun _ _ => 0, [], 0⟩ : SandState).hist.length + i) =
          some si.grid) :=
  C10_history_frame (fun _ i => i) 0 1 ⟨fun _ _ => 0, [], 0⟩ (by decide)
    (by unfold StableN; decide) (fun h hm => absurd hm (List.not_mem_nil h))

theorem toppleGrid_other_ge {n : Nat} (g : PGrid) {r c a b : Nat}
    (hne : ¬(a = r ∧ b = c)) : g a b ≤ toppleGrid n g r c a b := by
  rw [toppleGrid_apply, if_neg hne]
  omega

/-- Topple events at two distinct cells commute. -/
theorem topple_comm {n : Nat} {g : PGrid} {r c rp cp : Nat}
    (h4 : 4 ≤ g r c) (h4p : 4 ≤ g rp cp) (hne : ¬(r = rp ∧ c = cp)) :
    toppleGrid n (toppleGrid n g r c) rp cp =
      toppleGrid n (toppleGrid n g rp cp) r c := by
  funext a b
  simp only [toppleGrid_apply]
  by_cases h1 : a = r ∧ b = c
  · obtain ⟨rfl, rfl⟩ := h1
    have h2 : ¬(a = rp ∧ b = cp) := fun hh => hne ⟨hh.1, hh.2⟩
    rw [if_neg h2, if_pos ⟨rfl, rfl⟩, if_pos ⟨rfl, rfl⟩, if_neg h2,
      cnt_toppleAppends_self]
    omega
  · by_cases h2 : a = rp ∧ b = cp
    · obtain ⟨rfl, rfl⟩ := h2
      rw [if_pos ⟨rfl, rfl⟩, if_neg h1, if_neg h1, if_pos ⟨rfl, rfl⟩,
        cnt_toppleAppends_self]
      omega
    · rw [if_neg h2, if_neg h1, if_neg h1, if_neg h2]
      omega

/-- The toppling relation has the diamond property. -/
theorem topRel_diamond (n : Nat) : ∀ g g1 g2, topRel n g g1 → topRel n g g2 →
    ∃ d, Relation.ReflGen (topRel n) g1 d ∧
      Relation.ReflTransGen (topRel n) g2 d := by
  rintro g g1 g2 ⟨r, c, hr, hc, h4, rfl⟩ ⟨rp, cp, hrp, hcp, h4p, rfl⟩
  by_cases hne : r = rp ∧ c = cp
  · obtain ⟨rfl, rfl⟩ := hne
    exact ⟨toppleGrid n g r c, Relation.ReflGen.refl, Relation.ReflTransGen.refl⟩
  · refine ⟨toppleGrid n (toppleGrid n g r c) rp cp, ?_, ?_⟩
    · apply Relation.ReflGen.single
      refine ⟨rp, cp, hrp, hcp, ?_, rfl⟩
      have := toppleGrid_other_ge (n := n) g
        (r := r) (c := c) (a := rp) (b := cp)
        (fun hh => hne ⟨hh.1.symm, hh.2.symm⟩)
      omega
    · apply Relation.ReflTransGen.single
      refine ⟨r, c, hr, hc, ?_, ?_⟩
      · have := toppleGrid_other_ge (n := n) g
          (r := rp) (c := cp) (a := r) (b := c) hne
        omega
      · exact topple_comm h4 h4p hne

/-- No topple is possible from a stable grid, so reflexive-transitive
toppling from a stable grid goes nowhere. -/
theorem rtg_stable_eq {n : Nat} {s d : PGrid} (hs : StableN n s)
    (h : Relation.ReflTransGen (topRel n) s d) : d = s := by
  rcases Relation.ReflTransGen.cases_head h with rfl | ⟨x, hx, _⟩
  · rfl
  · obtain ⟨r, c, hr, hc, h4, _⟩ := hx
    have := hs r hr c hc
    omega

/-- Uniqueness of the stable configuration: any two stable grids
reachable by legal topples from the same start coincide. -/
theorem stable_join_eq {n : Nat} {g s1 s2 : PGrid}
    (h1 : Relation.ReflTransGen (topRel n) g s1)
    (h2 : Relation.ReflTransGen (topRel n) g s2)
    (hs1 : StableN n s1) (hs2 : StableN n s2) : s1 = s2 := by
  obtain ⟨d, hd1, hd2⟩ := Relation.church_rosser (topRel_diamond n) h1 h2
  exact (rtg_stable_eq hs1 hd1).symm.trans (rtg_stable_eq hs2 hd2)

/-- A worklist relaxation parameterized by how newly appended neighbor
coordinates are merged with the pending ones; FIFO appends them at the
back, LIFO pushes them at the front. -/
def relaxG (ins : List (Nat × Nat) → List (Nat × Nat) → List (Nat × Nat)) :
    Nat → Nat → PGrid → List (Nat × Nat) → Option PGrid
  | 0, _, _, _ => none
  | fuel + 1, n, g, l =>
    match l with
    | [] => some g
    | p :: rest =>
      if g p.1 p.2 < 4 then relaxG ins fuel n g rest
      else relaxG ins fuel n (toppleGrid n g p.1 p.2)
        (ins (toppleAppends n p.1 p.2) rest)

/-- Queue-ordered relaxation. -/
def relaxFIFO : Nat → Nat → PGrid → List (Nat × Nat) → Option PGrid :=
  relaxG (fun newly pending => pending ++ newly)

/-- Stack-ordered relaxation. -/
def relaxLIFO : Nat → Nat → PGrid → List (Nat × Nat) → Option PGrid :=
  relaxG (fun newly pending => newly ++ pending)

/-- Any merge discipline that preserves occurrence counts terminates
with the same fuel bound, topples only legally, and stabilizes. -/
theorem relaxG_main (ins : List (Nat × Nat) → List (Nat × Nat) → List (Nat × Nat))
    (hcnt : ∀ A B p, cnt p (ins A B) = cnt p A + cnt p B)
    (hlen : ∀ A B, (ins A B).length = A.length + B.length) :
    ∀ (k fuel n : Nat) (g : PGrid) (l : List (Nat × Nat)),
    l.length + phi n g ≤ k → k < fuel → InBL n l → InvQ n g l →
    ∃ g', relaxG ins fuel n g l = some g' ∧
      Relation.ReflTransGen (topRel n) g g' ∧ StableN n g' := by
  have hmem : ∀ A B q, q ∈ ins A B → q ∈ A ∨ q ∈ B := by
    intro A B q hq
    have := cnt_pos_of_mem hq
    rw [hcnt] at this
    by_cases hA : 0 < cnt q A
    · exact Or.inl (mem_of_cnt_pos hA)
    · exact Or.inr (mem_of_cnt_pos (by omega))
  intro k
  induction k with
  | zero =>
    intro fuel n g l hk hf hb hq
    obtain ⟨fl, rfl⟩ : ∃ fl, fuel = fl + 1 := ⟨fuel - 1, by omega⟩
    have hl : l = [] := List.length_eq_zero.mp (by omega)
    subst hl
    refine ⟨g, by simp [relaxG], Relation.ReflTransGen.refl, ?_⟩
    intro a ha b hb'
    have := hq a b ha hb'
    simp only [cnt] at this
    omega
  | succ k ih =>
    intro fuel n g l hk hf hb hq
    obtain ⟨fl, rfl⟩ : ∃ fl, fuel = fl + 1 := ⟨fuel - 1, by omega⟩
    rcases l with _ | ⟨p, rest⟩
    · refine ⟨g, by simp [relaxG], Relation.ReflTransGen.refl, ?_⟩
      intro a ha b hb'
      have := hq a b ha hb'
      simp only [cnt] at this
      omega
    · rcases p with ⟨p1, p2⟩
      have hp1 : p1 < n := (hb (p1, p2) (List.mem_cons_self _ rest)).1
      have hp2 : p2 < n := (hb (p1, p2) (List.mem_cons_self _ rest)).2
      by_cases hlt : g p1 p2 < 4
      · have hunf : relaxG ins (fl + 1) n g ((p1, p2) :: rest) =
            relaxG ins fl n g rest := by
          simp only [relaxG, if_pos hlt]
        have hq' : InvQ n g rest := by
          intro a b ha hb'
          have := hq a b ha hb'
          simp only [cnt] at this
          by_cases hab : ((p1, p2) : Nat × Nat) = (a, b)
          · rw [Prod.mk.injEq] at hab
            obtain ⟨rfl, rfl⟩ := hab
            omega
          · rw [if_neg hab] at this
            omega
        obtain ⟨g', heq, hr, hs⟩ := ih fl n g rest
          (by simp only [List.length_cons] at hk; omega) (by omega)
          (fun q hq' => hb q (List.mem_cons_of_mem _ hq')) hq'
        exact ⟨g', hunf ▸ heq, hr, hs⟩
      · have h4 : 4 ≤ g p1 p2 := by omega
        have hunf : relaxG ins (fl + 1) n g ((p1, p2) :: rest) =
            relaxG ins fl n (toppleGrid n g p1 p2)
              (ins (toppleAppends n p1 p2) rest) := by
          simp only [relaxG, if_neg hlt]
        have hphid := phi_topple hp1 hp2 h4
        have hlen4 := toppleAppends_len n p1 p2
        have hmeas : (ins (toppleAppends n p1 p2) rest).length +
            phi n (toppleGrid n g p1 p2) ≤ k := by
          rw [hlen]
          simp only [List.length_cons] at hk
          omega
        have hb' : InBL n (ins (toppleAppends n p1 p2) rest) := by
          intro q hqm
          rcases hmem _ _ q hqm with hqm | hqm
          · exact toppleAppends_bounds hp1 hp2 q hqm
          · exact hb q (List.mem_cons_of_mem _ hqm)
        have hq' : InvQ n (toppleGrid n g p1 p2)
            (ins (toppleAppends n p1 p2) rest) := by
          intro a b ha hb''
          have hold := hq a b ha hb''
          simp only [cnt] at hold
          rw [toppleGrid_apply, hcnt]
          by_cases hab : a = p1 ∧ b = p2
          · obtain ⟨rfl, rfl⟩ := hab
            rw [if_pos rfl] at hold
            rw [if_pos ⟨rfl, rfl⟩]
            omega
          · have hne : ((p1, p2) : Nat × Nat) ≠ (a, b) := by
              rw [Ne, Prod.mk.injEq]
              intro hh
              exact hab ⟨hh.1.symm, hh.2.symm⟩
            rw [if_neg hab]
            rw [if_neg hne] at hold
            omega
        obtain ⟨g', heq, hr, hs⟩ := ih fl n (toppleGrid n g p1 p2)
          (ins (toppleAppends n p1 p2) rest) hmeas (by omega) hb' hq'
        exact ⟨g', hunf ▸ heq,
          Relation.ReflTransGen.head ⟨p1, p2, hp1, hp2, h4, rfl⟩ hr, hs⟩

/-- The post-perturbation worklist invariant from a stable base grid. -/
theorem invq_incr {n : Nat} {g : PGrid} {r c : Nat} (hs : StableN n g) :
    InvQ n (incr g (r, c)) [(r, c)] := by
  intro a b ha hb
  rw [incr_apply]
  simp only [cnt]
  by_cases hab : a = r ∧ b = c
  · obtain ⟨rfl, rfl⟩ := hab
    rw [if_pos ⟨rfl, rfl⟩, if_pos rfl]
    have := hs a ha b hb
    omega
  · rw [if_neg hab, if_neg (fun hh => hab
      ⟨(congrArg Prod.fst hh).symm, (congrArg Prod.snd hh).symm⟩)]
    have := hs a ha b hb
    omega

/-- Claim C4: from any post-perturbation configuration (a stable grid
plus one dropped grain, worklist seeded with the drop site), the code's
generational relaxation, a FIFO worklist relaxation and a LIFO worklist
relaxation all terminate and produce the same final grid. -/
theorem C4_abelian (n : Nat) (base : PGrid) (r c : Nat) (hn : 0 < n)
    (hb : StableN n base) (hr : r < n) (hc : c < n) :
    ∃ gC gF gL,
      stepLoop (phi n (incr base (r, c)) + 3) n (incr base (r, c)) [(r, c)] =
        some gC ∧
      relaxFIFO (phi n (incr base (r, c)) + 2) n (incr base (r, c)) [(r, c)] =
        some gF ∧
      relaxLIFO (phi n (incr base (r, c)) + 2) n (incr base (r, c)) [(r, c)] =
        some gL ∧
      gF = gC ∧ gL = gC := by
  have hbl : InBL n [(r, c)] := by
    intro p hp
    rw [List.mem_singleton] at hp
    subst hp
    exact ⟨hr, hc⟩
  have hq : InvQ n (incr base (r, c)) [(r, c)] := invq_incr hb
  obtain ⟨gC, hC, hrC, hsC⟩ := stepLoop_ok n (incr base (r, c)) [(r, c)]
    (phi n (incr base (r, c))) hbl hq
  have hsC' : StableN n gC := fun a ha b hb' => hsC a b ha hb'
  obtain ⟨gF, hF, hrF, hsF⟩ := relaxG_main (fun newly pending => pending ++ newly)
    (fun A B p => by rw [cnt_append]; omega)
    (fun A B => by rw [List.length_append]; omega)
    (1 + phi n (incr base (r, c))) (phi n (incr base (r, c)) + 2) n
    (incr base (r, c)) [(r, c)] (by simp) (by omega) hbl hq
  obtain ⟨gL, hL, hrL, hsL⟩ := relaxG_main (fun newly pending => newly ++ pending)
    (fun A B p => by rw [cnt_append])
    (fun A B => by rw [List.length_append])
    (1 + phi n (incr base (r, c))) (phi n (incr base (r, c)) + 2) n
    (incr base (r, c)) [(r, c)] (by simp) (by omega) hbl hq
  exact ⟨gC, gF, gL, hC, hF, hL, stable_join_eq hrF hrC hsF hsC',
    stable_join_eq hrL hrC hsL hsC'⟩

/-- Witness for C4 at a concrete stable grid and drop site. -/
theorem C4_abelian_witness :
    ∃ gC gF gL,
      stepLoop (phi 2 (incr (fun _ _ => 3) (0, 0)) + 3) 2
        (incr (fun _ _ => 3) (0, 0)) [(0, 0)] = some gC ∧
      relaxFIFO (phi 2 (incr (fun _ _ => 3) (0, 0)) + 2) 2
        (incr (fun _ _ => 3) (0, 0)) [(0, 0)] = some gF ∧
      relaxLIFO (phi 2 (incr (fun _ _ => 3) (0, 0)) + 2) 2
        (incr (fun _ _ => 3) (0, 0)) [(0, 0)] = some gL ∧
      gF = gC ∧ gL = gC :=
  C4_abelian 2 (fun _ _ => 3) 0 0 (by decide) (by unfold StableN; decide)
    (by decide) (by decide)

/-- The pass of step() instrumented with two reconciliation counters:
lost counts grains discarded toward out-of-bounds neighbors (4 minus
the in-bounds neighbor count, per topple), bt counts topple events at
boundary cells (cells with fewer than 4 in-bounds neighbors). -/
def forPassM : Nat → Nat → PGrid → List (Nat × Nat) → List (Nat × Nat) →
    Nat → Nat → Option (PGrid × List (Nat × Nat) × Nat × Nat)
  | 0, _, _, _, _, _, _ => none
  | fuel + 1, n, g, todo, acc, lost, bt =>
    match todo with
    | [] => some (g, acc, lost, bt)
    | p :: rest =>
      if g p.1 p.2 < 4 then forPassM fuel n g rest acc lost bt
      else
        forPassM fuel n (toppleGrid n g p.1 p.2)
          (rest ++ toppleAppends n p.1 p.2) (acc ++ toppleAppends n p.1 p.2)
          (lost + (4 - (toppleAppends n p.1 p.2).length))
          (bt + if (toppleAppends n p.1 p.2).length < 4 then 1 else 0)

/-- The while loop of step() instrumented with the counters. -/
def stepLoopM : Nat → Nat → PGrid → List (Nat × Nat) → Nat → Nat →
    Option (PGrid × Nat × Nat)
  | 0, _, _, _, _, _ => none
  | fuel + 1, n, g, l, lost, bt =>
    match l with
    | [] => some (g, lost, bt)
    | p :: rest =>
      match forPassM (phi n g + (p :: rest).length + 1) n g (p :: rest) []
          lost bt with
      | none => none
      | some (g', acc, lost', bt') => stepLoopM fuel n g' acc lost' bt'

/-- The instrumentation does not change the computation: forgetting the
counters recovers the pass of step(). -/
theorem forPassM_proj : ∀ (fuel n : Nat) (g : PGrid)
    (todo acc : List (Nat × Nat)) (lost bt : Nat),
    (forPassM fuel n g todo acc lost bt).map (fun t => (t.1, t.2.1)) =
      forPass fuel n g todo acc := by
  intro fuel
  induction fuel with
  | zero => intro n g todo acc lost bt; rfl
  | succ fuel ih =>
    intro n g todo acc lost bt
    rcases todo with _ | ⟨p, rest⟩
    · rfl
    · by_cases hlt : g p.1 p.2 < 4
      · have h1 : forPassM (fuel + 1) n g (p :: rest) acc lost bt =
            forPassM fuel n g rest acc lost bt := by
          simp only [forPassM, if_pos hlt]
        have h2 : forPass (fuel + 1) n g (p :: rest) acc =
            forPass fuel n g rest acc := by
          simp only [forPass, if_pos hlt]
        rw [h1, h2]
        apply ih
      · have h1 : forPassM (fuel + 1) n g (p :: rest) acc lost bt =
            forPassM fuel n (toppleGrid n g p.1 p.2)
              (rest ++ toppleAppends n p.1 p.2) (acc ++ toppleAppends n p.1 p.2)
              (lost + (4 - (toppleAppends n p.1 p.2).length))
              (bt + if (toppleAppends n p.1 p.2).length < 4 then 1 else 0) := by
          simp only [forPassM, if_neg hlt]
        have h2 : forPass (fuel + 1) n g (p :: rest) acc =
            forPass fuel n (toppleGrid n g p.1 p.2)
              (rest ++ toppleAppends n p.1 p.2)
              (acc ++ toppleAppends n p.1 p.2) := by
          simp only [forPass, if_neg hlt]
        rw [h1, h2]
        apply ih

/-- Forgetting the counters of the instrumented while loop recovers the
while loop of step(). -/
theorem stepLoopM_proj : ∀ (fuel n : Nat) (g : PGrid) (l : List (Nat × Nat))
    (lost bt : Nat),
    (stepLoopM fuel n g l lost bt).map (fun t => t.1) = stepLoop fuel n g l := by
  intro fuel
  induction fuel with
  | zero => intro n g l lost bt; rfl
  | succ fuel ih =>
    intro n g l lost bt
    rcases l with _ | ⟨p, rest⟩
    · rfl
    · have hp := forPassM_proj (phi n g + ((p :: rest) : List (Nat × Nat)).length + 1)
        n g (p :: rest) [] lost bt
      rcases hm : forPassM (phi n g + ((p :: rest) : List (Nat × Nat)).length + 1)
          n g (p :: rest) [] lost bt with _ | ⟨g', acc, lost', bt'⟩
      · rw [hm] at hp
        have hul : stepLoopM (fuel + 1) n g (p :: rest) lost bt = none := by
          show (match forPassM (phi n g + ((p :: rest) : List (Nat × Nat)).length + 1)
              n g (p :: rest) [] lost bt with
            | none => none
            | some (g', acc, lost', bt') => stepLoopM fuel n g' acc lost' bt') = none
          rw [hm]
        have hur : stepLoop (fuel + 1) n g (p :: rest) = none := by
          show (match forPass (phi n g + ((p :: rest) : List (Nat × Nat)).length + 1)
              n g (p :: rest) [] with
            | none => none
            | some (g', acc) => stepLoop fuel n g' acc) = none
          rw [← hp]
          rfl
        rw [hul, hur]
        rfl
      · rw [hm] at hp
        have hul : stepLoopM (fuel + 1) n g (p :: rest) lost bt =
            stepLoopM fuel n g' acc lost' bt' := by
          show (match forPassM (phi n g + ((p :: rest) : List (Nat × Nat)).length + 1)
              n g (p :: rest) [] lost bt with
            | none => none
            | some (g', acc, lost', bt') => stepLoopM fuel n g' acc lost' bt') =
            stepLoopM fuel n g' acc lost' bt'
          rw [hm]
        have hur : stepLoop (fuel + 1) n g (p :: rest) = stepLoop fuel n g' acc := by
          show (match forPass (phi n g + ((p :: rest) : List (Nat × Nat)).length + 1)
              n g (p :: rest) [] with
            | none => none
            | some (g', acc) => stepLoop fuel n g' acc) = stepLoop fuel n g' acc
          rw [← hp]
          rfl
        rw [hul, hur]
        apply ih

/-- Grain conservation through one instrumented pass: grid mass plus
accumulated losses is invariant, and appended coordinates stay in
bounds. -/
theorem forPassM_mass : ∀ (fuel n : Nat) (g : PGrid)
    (todo acc : List (Nat × Nat)) (lost bt : Nat) (g2 : PGrid)
    (acc2 : List (Nat × Nat)) (lost2 bt2 : Nat),
    InBL n todo → InBL n acc →
    forPassM fuel n g todo acc lost bt = some (g2, acc2, lost2, bt2) →
    mass n g2 + lost2 = mass n g + lost ∧ InBL n acc2 := by
  intro fuel
  induction fuel with
  | zero =>
    intro n g todo acc lost bt g2 acc2 lost2 bt2 _ _ h
    cases h
  | succ fuel ih =>
    intro n g todo acc lost bt g2 acc2 lost2 bt2 hbt hba h
    rcases todo with _ | ⟨p, rest⟩
    · rw [show forPassM (fuel + 1) n g [] acc lost bt =
          some (g, acc, lost, bt) from rfl] at h
      injection h with h
      injection h with h1 h
      injection h with h2 h
      injection h with h3 h4
      subst h1; subst h2; subst h3
      exact ⟨rfl, hba⟩
    · rcases p with ⟨p1, p2⟩
      have hp1 : p1 < n := (hbt (p1, p2) (List.mem_cons_self _ rest)).1
      have hp2 : p2 < n := (hbt (p1, p2) (List.mem_cons_self _ rest)).2
      by_cases hlt : g p1 p2 < 4
      · rw [show forPassM (fuel + 1) n g ((p1, p2) :: rest) acc lost bt =
            forPassM fuel n g rest acc lost bt by
          simp only [forPassM, if_pos hlt]] at h
        exact ih n g rest acc lost bt g2 acc2 lost2 bt2
          (fun q hq => hbt q (List.mem_cons_of_mem _ hq)) hba h
      · have h4 : 4 ≤ g p1 p2 := by omega
        rw [show forPassM (fuel + 1) n g ((p1, p2) :: rest) acc lost bt =
            forPassM fuel n (toppleGrid n g p1 p2)
              (rest ++ toppleAppends n p1 p2) (acc ++ toppleAppends n p1 p2)
              (lost + (4 - (toppleAppends n p1 p2).length))
              (bt + if (toppleAppends n p1 p2).length < 4 then 1 else 0) by
          simp only [forPassM, if_neg hlt]] at h
        have hbt' : InBL n (rest ++ toppleAppends n p1 p2) := by
          intro q hq
          rcases List.mem_append.mp hq with hq | hq
          · exact hbt q (List.mem_cons_of_mem _ hq)
          · exact toppleAppends_bounds hp1 hp2 q hq
        have hba' : InBL n (acc ++ toppleAppends n p1 p2) := by
          intro q hq
          rcases List.mem_append.mp hq with hq | hq
          · exact hba q hq
          · exact toppleAppends_bounds hp1 hp2 q hq
        obtain ⟨hmass, hacc⟩ := ih n (toppleGrid n g p1 p2)
          (rest ++ toppleAppends n p1 p2) (acc ++ toppleAppends n p1 p2)
          (lost + (4 - (toppleAppends n p1 p2).length))
          (bt + if (toppleAppends n p1 p2).length < 4 then 1 else 0)
          g2 acc2 lost2 bt2 hbt' hba' h
        refine ⟨?_, hacc⟩
        have htop := mass_topple hp1 hp2 h4
        have hlen := toppleAppends_len n p1 p2
        omega

/-- Grain conservation through the instrumented while loop. -/
theorem stepLoopM_mass : ∀ (fuel n : Nat) (g : PGrid) (l : List (Nat × Nat))
    (lost bt : Nat) (g2 : PGrid) (lost2 bt2 : Nat), InBL n l →
    stepLoopM fuel n g l lost bt = some (g2, lost2, bt2) →
    mass n g2 + lost2 = mass n g + lost := by
  intro fuel
  induction fuel with
  | zero =>
    intro n g l lost bt g2 lost2 bt2 _ h
    cases h
  | succ fuel ih =>
    intro n g l lost bt g2 lost2 bt2 hbl h
    rcases l with _ | ⟨p, rest⟩
    · rw [show stepLoopM (fuel + 1) n g [] lost bt = some (g, lost, bt) from
        rfl] at h
      injection h with h
      injection h with h1 h
      injection h with h2 h3
      subst h1; subst h2
      rfl
    · rcases hm : forPassM (phi n g + ((p :: rest) : List (Nat × Nat)).length + 1)
          n g (p :: rest) [] lost bt with _ | ⟨g', acc, lost', bt'⟩
      · rw [show stepLoopM (fuel + 1) n g (p :: rest) lost bt =
            (match forPassM (phi n g + ((p :: rest) : List (Nat × Nat)).length + 1)
                n g (p :: rest) [] lost bt with
              | none => none
              | some (g', acc, lost', bt') => stepLoopM fuel n g' acc lost' bt')
            from rfl, hm] at h
        cases h
      · obtain ⟨hmass, hacc⟩ := forPassM_mass _ n g (p :: rest) [] lost bt
          g' acc lost' bt' hbl (fun q hq => absurd hq (List.not_mem_nil q)) hm
        rw [show stepLoopM (fuel + 1) n g (p :: rest) lost bt =
            (match forPassM (phi n g + ((p :: rest) : List (Nat × Nat)).length + 1)
                n g (p :: rest) [] lost bt with
              | none => none
              | some (g', acc, lost', bt') => stepLoopM fuel n g' acc lost' bt')
            from rfl, hm] at h
        have := ih n g' acc lost' bt' g2 lost2 bt2 hacc h
        omega

/-- Claim C6 (amended): for a single step dropping a grain at an
in-bounds site of a stable grid, the relaxed grid of the code's loop
satisfies: sum of all grid values after relaxation plus the number of
grains discarded toward out-of-bounds neighbors equals the sum before
the step plus 1.  Equivalently, the sum after equals (sum before + 1)
minus the discarded-grain count, where each boundary topple discards
one grain per missing neighbor, not four. -/
theorem C6_mass_accounting (n : Nat) (g : PGrid) (r c : Nat) (hn : 0 < n)
    (hs : StableN n g) (hr : r < n) (hc : c < n) :
    ∃ g' lost bt,
      stepLoopM (phi n (incr g (r, c)) + 3) n (incr g (r, c)) [(r, c)] 0 0 =
        some (g', lost, bt) ∧
      stepLoop (phi n (incr g (r, c)) + 3) n (incr g (r, c)) [(r, c)] =
        some g' ∧
      mass n g' + lost = mass n g + 1 := by
  obtain ⟨gl, hloop, _⟩ := stepLoop_stabilizes n g r c hs hr hc
  have hproj := stepLoopM_proj (phi n (incr g (r, c)) + 3) n (incr g (r, c))
    [(r, c)] 0 0
  rcases hm : stepLoopM (phi n (incr g (r, c)) + 3) n (incr g (r, c))
      [(r, c)] 0 0 with _ | ⟨g', lost, bt⟩
  · rw [hm, hloop] at hproj
    cases hproj
  · rw [hm, hloop, Option.map_some'] at hproj
    have hg : g' = gl := by
      injection hproj with hproj
    have hbl : InBL n [(r, c)] := by
      intro p hp
      rw [List.mem_singleton] at hp
      subst hp
      exact ⟨hr, hc⟩
    have hmass := stepLoopM_mass (phi n (incr g (r, c)) + 3) n (incr g (r, c))
      [(r, c)] 0 0 g' lost bt hbl hm
    refine ⟨g', lost, bt, rfl, ?_, ?_⟩
    · rw [hloop, hg]
    · rw [hmass, mass_incr g hr hc]

/-- Witness for the amended mass accounting at a concrete grid. -/
theorem C6_mass_accounting_witness :
    ∃ g' lost bt,
      stepLoopM (phi 2 (incr (fun i j => if i = 0 ∧ j = 0 then 3 else 0) (0, 0))
          + 3) 2 (incr (fun i j => if i = 0 ∧ j = 0 then 3 else 0) (0, 0))
        [(0, 0)] 0 0 = some (g', lost, bt) ∧
      stepLoop (phi 2 (incr (fun i j => if i = 0 ∧ j = 0 then 3 else 0) (0, 0))
          + 3) 2 (incr (fun i j => if i = 0 ∧ j = 0 then 3 else 0) (0, 0))
        [(0, 0)] = some g' ∧
      mass 2 g' + lost =
        mass 2 (fun i j => if i = 0 ∧ j = 0 then 3 else 0) + 1 :=
  C6_mass_accounting 2 (fun i j => if i = 0 ∧ j = 0 then 3 else 0) 0 0
    (by decide) (by unfold StableN; decide) (by decide) (by decide)

/-- Counterexample to claim C6 as stated: for the step dropping a grain
at (0,0) of the 2 x 2 grid [[3,0],[0,0]] (sum 3), the single topple is
a boundary topple (2 in-bounds neighbors), the relaxed sum is 2 and the
discarded-grain count is 2, but the claimed value (sum before + 1) -
4 * (number of boundary topples) = 4 - 4 = 0 is not the relaxed sum. -/
theorem C6_mass_counterexample :
    (stepLoopM (phi 2 (incr (fun i j => if i = 0 ∧ j = 0 then 3 else 0) (0, 0))
        + 3) 2 (incr (fun i j => if i = 0 ∧ j = 0 then 3 else 0) (0, 0))
      [(0, 0)] 0 0).map (fun t => (mass 2 t.1, t.2.1, t.2.2)) =
      some (2, 2, 1) ∧
    mass 2 (fun i j => if i = 0 ∧ j = 0 then 3 else 0) = 3 ∧
    ((2 : Int) ≠ ((3 : Int) + 1) - 4 * 1) := by
  refine ⟨by decide, by decide, by decide⟩

/-!
Grid validation of PercolationSimulation.__init__ for a caller-supplied
grid, and the check_difference utility of AbelianSandpile.  Both take
numpy arrays; a 2-dimensional array is embedded as a list of rows.
-/

/-- The assert of PercolationSimulation.__init__ for a supplied grid:
len(np.unique(np.ravel(grid))) <= 2, i.e. the flattened grid has at
most two distinct values. -/
def gridValidate (g : List (List Nat)) : Bool :=
  decide (g.join.dedup.length ≤ 2)

/-- Claim C7 (amended): construction with a supplied grid succeeds iff
the grid holds at most two distinct values.  Consequently it always
succeeds on a {0,1}-valued grid, and whenever it fails the grid does
contain a value outside {0,1}; but it does not fail on every grid with
values outside {0,1} (any grid with at most two distinct values is
accepted). -/
theorem C7_validate (g : List (List Nat)) :
    (gridValidate g = true ↔ g.join.dedup.length ≤ 2) ∧
    ((∀ v ∈ g.join, v = 0 ∨ v = 1) → gridValidate g = true) ∧
    (gridValidate g = false → ∃ v ∈ g.join, ¬(v = 0 ∨ v = 1)) := by
  have h01 : (∀ v ∈ g.join, v = 0 ∨ v = 1) → gridValidate g = true := by
    intro hv
    apply decide_eq_true
    have hnd : g.join.dedup.Nodup := List.nodup_dedup _
    have h1 : g.join.dedup.toFinset.card = g.join.dedup.length :=
      List.toFinset_card_of_nodup hnd
    have h2 : g.join.dedup.toFinset ⊆ ({0, 1} : Finset Nat) := by
      intro x hx
      rcases hv x (List.dedup_subset _ (List.mem_toFinset.mp hx)) with rfl | rfl <;>
        simp
    have h3 := Finset.card_le_card h2
    simp at h3
    omega
  refine ⟨by unfold gridValidate; exact decide_eq_true_iff, h01, ?_⟩
  intro hf
  by_contra hno
  push_neg at hno
  have : ∀ v ∈ g.join, v = 0 ∨ v = 1 := by
    intro v hv
    by_contra hv2
    exact absurd (hno v hv) (by tauto)
  rw [h01 this] at hf
  cases hf

/-- Witness for C7 at a concrete {0,1} grid. -/
theorem C7_validate_witness : gridValidate [[0, 1], [1, 0]] = true :=
  (C7_validate [[0, 1], [1, 0]]).2.1 (by decide)

/-- Counterexample to claim C7 as stated: the all-2 grid contains a
value outside {0,1} yet has a single distinct value, so the assert
passes and construction succeeds instead of failing. -/
theorem C7_counterexample :
    gridValidate [[2, 2], [2, 2]] = true ∧
    (2 : Nat) ∈ ([[2, 2], [2, 2]] : List (List Nat)).join ∧
    ¬((2 : Nat) = 0 ∨ (2 : Nat) = 1) := ⟨by decide, by decide, by decide⟩

/-- Number of rows of a 2-dimensional array. -/
def rowsOf (g : List (List Nat)) : Nat := g.length

/-- Number of columns of a 2-dimensional array (rectangular rows). -/
def colsOf (g : List (List Nat)) : Nat := (g.headD []).length

/-- Array entry access. -/
def entry (g : List (List Nat)) (i j : Nat) : Nat := (g.getD i []).getD j 0

/-- numpy broadcast index along one dimension of size d. -/
def bcastIdx (d i : Nat) : Nat := if d = 1 then 0 else i

/-- AbelianSandpile.check_difference: np.sum(grid1 != grid2).  numpy
compares element-wise after broadcasting; shapes broadcast when each
dimension pair is equal or one of the two is 1, and a non-broadcastable
pair raises, yielding no result. -/
def checkDifference (g1 g2 : List (List Nat)) : Option Nat :=
  if (rowsOf g1 = rowsOf g2 ∨ rowsOf g1 = 1 ∨ rowsOf g2 = 1) ∧
      (colsOf g1 = colsOf g2 ∨ colsOf g1 = 1 ∨ colsOf g2 = 1) then
    some ((((Finset.range (max (rowsOf g1) (rowsOf g2))) ×ˢ
        (Finset.range (max (colsOf g1) (colsOf g2)))).filter (fun p =>
      entry g1 (bcastIdx (rowsOf g1) p.1) (bcastIdx (colsOf g1) p.2) ≠
        entry g2 (bcastIdx (rowsOf g2) p.1) (bcastIdx (colsOf g2) p.2))).card)
  else none

theorem bcastIdx_self {d i : Nat} (h : i < d) : bcastIdx d i = i := by
  unfold bcastIdx
  split_ifs with h1
  · omega
  · rfl

/-- Claim C8 (amended): check_difference fails (with no partial result)
iff the two shapes are not broadcastable — not iff they merely differ;
with identical shapes it returns the count of coordinate positions
whose values differ, it is symmetric in its arguments, and with
identical shapes it returns zero iff the grids agree element-wise.  It
is a pure function of the two grids. -/
theorem C8_check_difference (g1 g2 : List (List Nat)) :
    (checkDifference g1 g2 = none ↔
      ¬((rowsOf g1 = rowsOf g2 ∨ rowsOf g1 = 1 ∨ rowsOf g2 = 1) ∧
        (colsOf g1 = colsOf g2 ∨ colsOf g1 = 1 ∨ colsOf g2 = 1))) ∧
    (rowsOf g1 = rowsOf g2 → colsOf g1 = colsOf g2 →
      checkDifference g1 g2 =
        some ((((Finset.range (rowsOf g1)) ×ˢ (Finset.range (colsOf g1))).filter
          (fun p => entry g1 p.1 p.2 ≠ entry g2 p.1 p.2)).card)) ∧
    checkDifference g1 g2 = checkDifference g2 g1 ∧
    (rowsOf g1 = rowsOf g2 → colsOf g1 = colsOf g2 →
      (checkDifference g1 g2 = some 0 ↔
        ∀ i, i < rowsOf g1 → ∀ j, j < colsOf g1 → entry g1 i j = entry g2 i j)) := by
  have hsame : rowsOf g1 = rowsOf g2 → colsOf g1 = colsOf g2 →
      checkDifference g1 g2 =
        some ((((Finset.range (rowsOf g1)) ×ˢ (Finset.range (colsOf g1))).filter
          (fun p => entry g1 p.1 p.2 ≠ entry g2 p.1 p.2)).card) := by
    intro hr hc
    rw [checkDifference, if_pos ⟨Or.inl hr, Or.inl hc⟩]
    congr 1
    have hmr : max (rowsOf g1) (rowsOf g2) = rowsOf g1 := by omega
    have hmc : max (colsOf g1) (colsOf g2) = colsOf g1 := by omega
    rw [hmr, hmc]
    apply congrArg
    apply Finset.filter_congr
    intro p hp
    rw [Finset.mem_product, Finset.mem_range, Finset.mem_range] at hp
    rw [bcastIdx_self hp.1, bcastIdx_self hp.2,
      bcastIdx_self (hr ▸ hp.1), bcastIdx_self (hc ▸ hp.2)]
  refine ⟨?_, hsame, ?_, ?_⟩
  · constructor
    · intro h hc
      rw [checkDifference, if_pos hc] at h
      cases h
    · intro hc
      rw [checkDifference, if_neg hc]
  · by_cases hc : (rowsOf g1 = rowsOf g2 ∨ rowsOf g1 = 1 ∨ rowsOf g2 = 1) ∧
        (colsOf g1 = colsOf g2 ∨ colsOf g1 = 1 ∨ colsOf g2 = 1)
    · have hc2 : (rowsOf g2 = rowsOf g1 ∨ rowsOf g2 = 1 ∨ rowsOf g1 = 1) ∧
          (colsOf g2 = colsOf g1 ∨ colsOf g2 = 1 ∨ colsOf g1 = 1) := by
        obtain ⟨h1, h2⟩ := hc
        exact ⟨by omega, by omega⟩
      rw [checkDifference, if_pos hc, checkDifference, if_pos hc2]
      rw [Nat.max_comm (rowsOf g2) (rowsOf g1), Nat.max_comm (colsOf g2) (colsOf g1)]
      congr 1
      apply congrArg
      apply Finset.filter_congr
      intro p _
      exact ne_comm
    · have hc2 : ¬((rowsOf g2 = rowsOf g1 ∨ rowsOf g2 = 1 ∨ rowsOf g1 = 1) ∧
          (colsOf g2 = colsOf g1 ∨ colsOf g2 = 1 ∨ colsOf g1 = 1)) := by
        intro hh
        obtain ⟨h1, h2⟩ := hh
        exact hc ⟨by omega, by omega⟩
      rw [checkDifference, if_neg hc, checkDifference, if_neg hc2]
  · intro hr hc
    rw [hsame hr hc]
    rw [Option.some_inj, Finset.card_eq_zero, Finset.filter_eq_empty_iff]
    constructor
    · intro h i hi j hj
      have := @h (i, j) (by
        rw [Finset.mem_product, Finset.mem_range, Finset.mem_range]
        exact ⟨hi, hj⟩)
      simpa using this
    · intro h p hp
      rw [Finset.mem_product, Finset.mem_range, Finset.mem_range] at hp
      simp only [ne_eq, not_not]
      exact h p.1 hp.1 p.2 hp.2

/-- Witness for C8 at two concrete grids of identical shape. -/
theorem C8_check_difference_witness :
    checkDifference [[0, 1], [1, 0]] [[0, 1], [0, 0]] =
      some ((((Finset.range (rowsOf [[0, 1], [1, 0]])) ×ˢ
        (Finset.range (colsOf [[0, 1], [1, 0]]))).filter
        (fun p => entry [[0, 1], [1, 0]] p.1 p.2 ≠
          entry [[0, 1], [0, 0]] p.1 p.2)).card) :=
  (C8_check_difference [[0, 1], [1, 0]] [[0, 1], [0, 0]]).2.1 rfl rfl

/-- Counterexample to claim C8 as stated: a 1 x 1 grid against a 2 x 2
grid differ in dimensions, yet numpy broadcasts the comparison and
check_difference returns a count (2) instead of failing. -/
theorem C8_counterexample :
    rowsOf [[0]] ≠ rowsOf [[1, 0], [0, 1]] ∧
    checkDifference [[0]] [[1, 0], [0, 1]] = some 2 := ⟨by decide, by decide⟩
